import Mathlib

/-!
Verification of the hybrid RAG retrieval core of `src/arxiv_rag.py`
(`chunk_markdown_by_h2`, `ArxivAbstractRAG.ensure_index`,
`_index_docs_incremental`, `_ensure_embeddings_cached`, `retrieve`,
`_normalize_bm25`, `_normalize_01`, `format_context`).

Modelling conventions:
- Python strings are `List Char` (`Text`); `str` injects Lean string literals.
- Python floats are modelled as rationals `ℚ` (the algorithms are exact
  real-arithmetic formulas; IEEE rounding is outside the embedding).
- SQLite tables are lists of typed rows inside an explicit `DBState`;
  SQL statements become the corresponding list operations.
- `hashlib.sha256` and `time.time` are ambient parameters (`h`, `now`):
  the code only ever compares hashes for equality and stores timestamps.
- Network calls (`requests.post` for embeddings) are environment
  functions; an exception raised by a call is its `Option.none` result.
-/

abbrev Text := List Char

def str (s : String) : Text := s.data

/-- Python `str.strip()` whitespace set (`' '`, `\t`, `\n`, `\r`, `\v`, `\f`). -/
def isPySpace (c : Char) : Bool :=
  c == ' ' || c == '\t' || c == '\n' || c == '\r' || c == '\x0b' || c == '\x0c'

/-- Python `str.strip()`. -/
def pyStrip (l : Text) : Text :=
  ((l.dropWhile isPySpace).reverse.dropWhile isPySpace).reverse

/-! ## Content chunker (`chunk_markdown_by_h2`, arxiv_rag.py lines 57-95) -/

/-- Does `s` start a second-level heading, i.e. does the zero-width
pattern `(?=^##\s+)` match here (line-start handled by the caller)? -/
def h2At : Text → Bool
  | '#' :: '#' :: c :: _ => isPySpace c
  | _ => false

/-- All suffixes of `s` that begin right after a `'\n'` — the non-initial
line starts, in left-to-right order (for `re.MULTILINE` scans). -/
def tailsAfterNL : Text → List Text
  | [] => []
  | c :: rest => if c == '\n' then rest :: tailsAfterNL rest else tailsAfterNL rest

/-- `re.split(r"(?=^##\s+)", content, flags=re.MULTILINE)`: walk the text
tracking whether we sit at a line start; cut (zero-width) before every
line-start `##\s`.  Python ≥3.7 also splits at position 0, yielding a
leading `""` segment, which the `atLS` initial value `true` reproduces. -/
def splitH2Go (atLS : Bool) (acc : Text) : Text → List Text
  | [] => [acc.reverse]
  | c :: rest =>
    if atLS && h2At (c :: rest) then
      acc.reverse :: splitH2Go (c == '\n') [c] rest
    else
      splitH2Go (c == '\n') (c :: acc) rest

def splitH2 (content : Text) : List Text := splitH2Go true [] content

/-- Backtracking match of `\s+(.+)$` against `t` (the text after the
`#`-run of a heading pattern), returning the captured group.
`\s+` first takes the maximal whitespace run `M`; if a character follows,
`(.+)` is the maximal `'\n'`-free run from there.  If `t` is all
whitespace, the engine backtracks to the last position `k ≥ 1` whose
character is not `'\n'` (a dot can still match it). -/
def matchTitleTail (t : Text) : Option Text :=
  let M := (t.takeWhile isPySpace).length
  if M = 0 then none
  else if M < t.length then some ((t.drop M).takeWhile (fun c => !(c == '\n')))
  else
    let m := (t.reverse.takeWhile (fun c => c == '\n')).length
    if t.length ≥ m + 2 then
      some ((t.drop (t.length - m - 1)).takeWhile (fun c => !(c == '\n')))
    else none

/-- Try the heading pattern (`n` leading `'#'`) at one line start. -/
def matchHeadingAt (n : Nat) (s : Text) : Option Text :=
  if s.take n = List.replicate n '#' then matchTitleTail (s.drop n) else none

/-- `re.search(r"^#{n}\s+(.+)$", s, re.MULTILINE)`: first line start
(position 0 or after a newline) where the pattern matches. -/
def searchHeading (n : Nat) (s : Text) : Option Text :=
  (s :: tailsAfterNL s).findSome? (matchHeadingAt n)

structure MDChunk where
  content : Text
  source_file : Text
  doc_title : Text
  section_title : Text
deriving DecidableEq, Repr

/-- Document title: `re.search(r"^#\s+(.+)$", content, re.M)`, group
stripped, falling back to the filename. -/
def docTitleOf (content filename : Text) : Text :=
  match searchHeading 1 content with
  | some t => pyStrip t
  | none => filename

/-- The two-line provenance header prefixed to every chunk body. -/
def provHeader (filename doc_title : Text) : Text :=
  str "[From: " ++ filename ++ str "]\n# " ++ doc_title ++ str "\n\n"

/-- `chunk_markdown_by_h2(content, filename)` (lines 57-95). -/
def chunk_markdown_by_h2 (content filename : Text) : List MDChunk :=
  let doc_title := docTitleOf content filename
  let sections := splitH2 content
  let chunks := sections.filterMap (fun sec0 =>
    let sec := pyStrip sec0
    if sec = [] then none
    else
      let section_title :=
        match searchHeading 2 sec with
        | some t => pyStrip t
        | none => str "Introduction"
      some ⟨pyStrip (provHeader filename doc_title ++ sec),
            filename, doc_title, section_title⟩)
  if chunks ≠ [] then chunks
  else [⟨pyStrip (provHeader filename doc_title ++ content),
         filename, doc_title, str "Full"⟩]

/-- "The document contains no second-level heading": the `(?=^##\s+)`
pattern matches at no line start. -/
def noH2 (s : Text) : Bool := (s :: tailsAfterNL s).all (fun t => !h2At t)

/-! ## Score dictionaries and normalization
(`_normalize_bm25` lines 524-538, `_normalize_01` lines 540-550).
Python `Dict[int, float]` is an association list with unique keys in
insertion order; scores are rationals. -/

/-- `d[k] = v` for a Python dict: replace if the key exists, else append. -/
def dictInsert (d : List (Nat × ℚ)) (k : Nat) (v : ℚ) : List (Nat × ℚ) :=
  if d.any (fun p => p.1 == k) then
    d.map (fun p => if p.1 = k then (k, v) else p)
  else d ++ [(k, v)]

/-- Build a dict from key/value pairs in order (later pairs overwrite). -/
def dictOfList (l : List (Nat × ℚ)) : List (Nat × ℚ) :=
  l.foldl (fun d p => dictInsert d p.1 p.2) []

/-- `d.get(k, dflt)`. -/
def dictGet (d : List (Nat × ℚ)) (k : Nat) (dflt : ℚ) : ℚ :=
  match d.find? (fun p => p.1 == k) with
  | some p => p.2
  | none => dflt

/-- Python `min` of a non-empty list (left fold). -/
def listMin : List ℚ → ℚ
  | [] => 0
  | v :: vs => vs.foldl min v

/-- Python `max` of a non-empty list (left fold). -/
def listMax : List ℚ → ℚ
  | [] => 0
  | v :: vs => vs.foldl max v

/-- `_normalize_bm25(scores)`: FTS5 bm25() is negative, more negative =
better; rescale to [0,1] with 1 best; all-equal degenerates to 1. -/
def normalize_bm25 (scores : List (Nat × ℚ)) : List (Nat × ℚ) :=
  if scores = [] then []
  else
    let vals := scores.map (fun p => p.2)
    let mn := listMin vals
    let mx := listMax vals
    if mn = mx then scores.map (fun p => (p.1, (1 : ℚ)))
    else
      let rng := mx - mn
      scores.map (fun p => (p.1, (mx - p.2) / rng))

/-- `_normalize_01(scores)`: min-max rescale, higher = better. -/
def normalize_01 (scores : List (Nat × ℚ)) : List (Nat × ℚ) :=
  if scores = [] then []
  else
    let vals := scores.map (fun p => p.2)
    let mn := listMin vals
    let mx := listMax vals
    if mn = mx then scores.map (fun p => (p.1, (1 : ℚ)))
    else
      let rng := mx - mn
      scores.map (fun p => (p.1, (p.2 - mn) / rng))

/-! ## Retrieval hit and context formatter
(`RAGHit` lines 119-127, `format_context` lines 552-573). -/

structure RAGHit where
  chunk_id : Nat
  source_file : Text
  section_title : Text
  content : Text
  bm25_score : ℚ
  semantic_score : ℚ
  final_score : ℚ
deriving DecidableEq, Repr

/-- Round to the nearest integer, ties to even (decimal idealization of
the IEEE rounding used by `format(x, '.2f')`). -/
def roundHalfEven (x : ℚ) : ℤ :=
  let n := ⌊x⌋
  let f := x - n
  if f < 1 / 2 then n
  else if 1 / 2 < f then n + 1
  else if n % 2 = 0 then n else n + 1

def natDigitsGo : Nat → Nat → Text
  | 0, _ => []
  | _ + 1, 0 => []
  | fuel + 1, n + 1 =>
    natDigitsGo fuel ((n + 1) / 10) ++ [Char.ofNat (48 + (n + 1) % 10)]

/-- Decimal rendering of a natural number. -/
def natRepr (n : Nat) : Text := if n = 0 then str "0" else natDigitsGo (n + 1) n

def padTwo (n : Nat) : Text := if n < 10 then '0' :: natRepr n else natRepr n

/-- `f"{x:.2f}"`. -/
def formatScore2 (q : ℚ) : Text :=
  let r := roundHalfEven (q * 100)
  let a := r.natAbs
  (if q < 0 then str "-" else []) ++ natRepr (a / 100) ++ str "." ++ padTwo (a % 100)

/-- `f"[{i}] {h.source_file} :: {h.section_title} (score={h.final_score:.2f})"`. -/
def fmtHeader (i : Nat) (h : RAGHit) : Text :=
  str "[" ++ natRepr i ++ str "] " ++ h.source_file ++ str " :: "
    ++ h.section_title ++ str " (score=" ++ formatScore2 h.final_score ++ str ")"

/-- The `for i, h in enumerate(hits, 1)` loop of `format_context`:
emit entries until the remaining budget drops to 200 or less. -/
def fcGo (maxChars : ℤ) : Nat → ℤ → List RAGHit → List Text
  | _, _, [] => []
  | i, used, hit :: rest =>
    let header := fmtHeader i hit
    let body := pyStrip hit.content
    let avail : ℤ := maxChars - used - header.length - 5
    if avail ≤ 200 then []
    else
      let body2 :=
        if (body.length : ℤ) > avail then body.take (avail - 3).toNat ++ str "..."
        else body
      let entry := header ++ str "\n" ++ body2 ++ str "\n"
      entry :: fcGo maxChars (i + 1) (used + entry.length) rest

/-- Python `sep.join(parts)`. -/
def joinSep (sep : Text) : List Text → Text
  | [] => []
  | [p] => p
  | p :: rest => p ++ sep ++ joinSep sep rest

/-- `format_context(hits, max_chars)` (lines 552-573). -/
def format_context (hits : List RAGHit) (maxChars : ℤ) : Text :=
  if hits = [] then []
  else pyStrip (joinSep (str "\n") (fcGo maxChars 1 0 hits))

/-! ## Formatter lemmas -/

def textsLen (l : List Text) : ℤ := ((l.map List.length).sum : ℕ)

/-! ## Query sanitization (`_safe_fts_query`, lines 44-54) -/

def isWordChar (c : Char) : Bool :=
  ('A' ≤ c && c ≤ 'Z') || ('a' ≤ c && c ≤ 'z') || ('0' ≤ c && c ≤ '9') || c == '_'

/-- `re.findall(r"[A-Za-z0-9_]+", query)`: maximal word-character runs. -/
def wordRunsGo (cur : Text) : Text → List Text
  | [] => if cur = [] then [] else [cur.reverse]
  | c :: rest =>
    if isWordChar c then wordRunsGo (c :: cur) rest
    else if cur = [] then wordRunsGo [] rest
    else cur.reverse :: wordRunsGo [] rest

def wordRuns (q : Text) : List Text := wordRunsGo [] q

/-- `_safe_fts_query(query)`: join the first 25 tokens with `" OR "`. -/
def safe_fts_query (query : Text) : Text :=
  let terms := wordRuns query
  if terms = [] then [] else joinSep (str " OR ") (terms.take 25)

/-! ## Retrieval pipeline (`retrieve`, lines 401-522)

The SQLite store and the network are an explicit environment:
`fts` is the FTS5 `MATCH` query (its `Except.error` is
`sqlite3.OperationalError`), `chunks` is the `rag_chunks` table,
`q_embed` is `_openrouter_embed([query])[0]` with `[]` for a raised
exception or empty vector, and `cosineCore` abstracts the value
`dot/(na*nb)` of `_cosine_similarity` once its guards pass (its square
roots are not rational-representable; no claim depends on the value).
The `_pack_f32`/`_unpack_f32` round trip is exact, so stored embeddings
are kept as vectors. -/

structure ChunkRow where
  id : Nat
  source_file : Text
  section_title : Text
  content : Text
  content_hash : Text
  indexed_at : Nat
deriving DecidableEq, Repr

inductive StoreEvent where
  | connect
  | ensureIndexCall
  | ensureEmbeddingsCall
deriving DecidableEq, Repr

structure RetrieveCfg where
  enable_semantic : Bool
  has_api_key : Bool
  embedding_model : Text
  keyword_weight : ℚ
  semantic_weight : ℚ

structure RetrieveEnv where
  db_file_exists : Bool
  fts : Text → Nat → Except Unit (List (Nat × ℚ))
  chunks : List ChunkRow
  q_embed : Text → List ℚ
  emb_rows : List (Nat × Text × List ℚ)
  cosineCore : List ℚ → List ℚ → ℚ

/-- `_cosine_similarity` guards (lines 98-106): empty or length-mismatched
vectors score 0. -/
def cosineSim (core : List ℚ → List ℚ → ℚ) (a b : List ℚ) : ℚ :=
  if a = [] ∨ b = [] ∨ a.length ≠ b.length then 0 else core a b

/-- Stable descending insertion (Python `list.sort(key=..., reverse=True)`
is stable: an inserted earlier element goes before equal later ones). -/
def insertPairDesc (x : Nat × ℚ) : List (Nat × ℚ) → List (Nat × ℚ)
  | [] => [x]
  | y :: ys => if y.2 ≤ x.2 then x :: y :: ys else y :: insertPairDesc x ys

def sortPairsDesc (l : List (Nat × ℚ)) : List (Nat × ℚ) :=
  l.foldr insertPairDesc []

def insertHitDesc (x : RAGHit) : List RAGHit → List RAGHit
  | [] => [x]
  | y :: ys =>
    if y.final_score ≤ x.final_score then x :: y :: ys else y :: insertHitDesc x ys

def sortHitsDesc (l : List RAGHit) : List RAGHit := l.foldr insertHitDesc []

/-- The bm25 candidate dict of one `retrieve` call (lines 426-441):
empty sanitized query skips the search; `sqlite3.OperationalError`
degrades to an empty dict. -/
def retrieveBm25Hits (env : RetrieveEnv) (query : Text) (bm25_limit : Nat) :
    List (Nat × ℚ) :=
  if safe_fts_query query = [] then []
  else
    match env.fts (safe_fts_query query) bm25_limit with
    | Except.ok rows => dictOfList rows
    | Except.error _ => []

/-- The semantic candidate dict of one `retrieve` call (lines 443-471):
requires semantic mode and a key; an empty query embedding skips;
otherwise cosine scores against cached rows of the configured model,
sorted descending and truncated to `semantic_limit`. -/
def retrieveSemanticHits (cfg : RetrieveCfg) (env : RetrieveEnv)
    (query : Text) (semantic_limit : Nat) : List (Nat × ℚ) :=
  if cfg.enable_semantic && cfg.has_api_key then
    if env.q_embed query = [] then []
    else
      dictOfList ((sortPairsDesc
        ((env.emb_rows.filter (fun r => r.2.1 == cfg.embedding_model)).map
          (fun r => (r.1, cosineSim env.cosineCore (env.q_embed query) r.2.2)))).take
        semantic_limit)
  else []

/-- Hit construction and fusion (lines 493-516). -/
def mkHit (cfg : RetrieveCfg) (bm25_norm sem_norm : List (Nat × ℚ))
    (r : ChunkRow) : RAGHit :=
  let b := dictGet bm25_norm r.id 0
  let s := dictGet sem_norm r.id 0
  let final :=
    if sem_norm = [] then b
    else if bm25_norm = [] then s
    else cfg.keyword_weight * b + cfg.semantic_weight * s
  ⟨r.id, r.source_file, r.section_title, r.content, b, s, final⟩

/-- Candidate merge, fetch, fusion, ranking and top-k truncation
(lines 473-519); an empty merged candidate set short-circuits to `[]`. -/
def retrieveHits (cfg : RetrieveCfg) (env : RetrieveEnv) (query : Text)
    (top_k bm25_limit semantic_limit : Nat) : List RAGHit :=
  if retrieveBm25Hits env query bm25_limit = []
      ∧ retrieveSemanticHits cfg env query semantic_limit = [] then []
  else
    (sortHitsDesc ((env.chunks.filter (fun c =>
        (retrieveBm25Hits env query bm25_limit).any (fun p => p.1 == c.id)
        || (retrieveSemanticHits cfg env query semantic_limit).any
            (fun p => p.1 == c.id))).map
      (mkHit cfg (normalize_bm25 (retrieveBm25Hits env query bm25_limit))
        (normalize_01 (retrieveSemanticHits cfg env query semantic_limit))))).take
      top_k

/-- `retrieve(query, top_k, max_chars, bm25_limit, semantic_limit)`
(lines 401-522), returning `((context, hits), store events)`.  The event
trace records every touch of the persistent store: the lazy
`ensure_index()` when the database file is missing, the connection, and
the lazy `_ensure_embeddings_cached()` of the semantic branch. -/
def retrieve (cfg : RetrieveCfg) (env : RetrieveEnv) (q : Text)
    (top_k : Nat) (max_chars : ℤ) (bm25_limit semantic_limit : Nat) :
    (Text × List RAGHit) × List StoreEvent :=
  if pyStrip q = [] then (([], []), [])
  else
    let events :=
      (if env.db_file_exists then [] else [StoreEvent.ensureIndexCall])
        ++ [StoreEvent.connect]
        ++ (if cfg.enable_semantic && cfg.has_api_key
            then [StoreEvent.ensureEmbeddingsCall] else [])
    let hits := retrieveHits cfg env (pyStrip q) top_k bm25_limit semantic_limit
    ((format_context hits max_chars, hits), events)

/-! ## Persistent store and incremental indexing
(`ensure_index` lines 167-254, `_index_docs_incremental` lines 256-308,
`_ensure_embeddings_cached` lines 339-399).

`sha : Text → Text` is `hashlib.sha256(...).hexdigest` (only compared for
equality), `now : Nat` is `_now_s()`, and
`embedFn : List Text → Option (List (List ℚ))` is `_openrouter_embed` on
a batch, with `none` for a raised exception.  Table creation
(`CREATE ... IF NOT EXISTS`) is the identity on the explicit table state;
the FTS index is maintained by triggers exactly in sync with `rag_chunks`,
so it needs no separate state. -/

structure SourceRow where
  source_file : Text
  file_hash : Text
  indexed_at : Nat
deriving DecidableEq, Repr

structure EmbRow where
  chunk_id : Nat
  model : Text
  dim : Nat
  embedding : List ℚ
  content_hash : Text
  created_at : Nat
deriving DecidableEq, Repr

structure DBState where
  chunks : List ChunkRow
  nextId : Nat
  sources : List SourceRow
  embeddings : List EmbRow
deriving DecidableEq, Repr

/-- Schema invariants: primary keys (`rag_chunks.id`,
`rag_sources.source_file`, `rag_embeddings.chunk_id`) and the
`AUTOINCREMENT` high-water mark. -/
def DBInv (db : DBState) : Prop :=
  (db.chunks.map (fun c => c.id)).Nodup
  ∧ (∀ c ∈ db.chunks, c.id < db.nextId)
  ∧ (db.sources.map (fun s => s.source_file)).Nodup
  ∧ (db.embeddings.map (fun e => e.chunk_id)).Nodup

def lookupSource (db : DBState) (name : Text) : Option SourceRow :=
  db.sources.find? (fun s => s.source_file == name)

/-- `INSERT INTO rag_sources ... ON CONFLICT(source_file) DO UPDATE SET
file_hash, indexed_at` (lines 297-306). -/
def upsertSource (sources : List SourceRow) (r : SourceRow) : List SourceRow :=
  if sources.any (fun s => s.source_file == r.source_file) then
    sources.map (fun s =>
      if s.source_file == r.source_file then
        { s with file_hash := r.file_hash, indexed_at := r.indexed_at }
      else s)
  else sources ++ [r]

/-- The chunk-insertion loop (lines 284-295): fresh `AUTOINCREMENT` ids,
`section_title or "Section"` fallback, content hash, shared timestamp. -/
def insertChunks (sha : Text → Text) (name : Text) (now : Nat)
    (chs : List MDChunk) (db : DBState) : DBState :=
  chs.foldl (fun d ch =>
    let section_title :=
      if ch.section_title = [] then str "Section" else ch.section_title
    { d with
      chunks := d.chunks
        ++ [⟨d.nextId, name, section_title, ch.content, sha ch.content, now⟩],
      nextId := d.nextId + 1 }) db

/-- One iteration of the `for md_path in md_files` loop (lines 264-306):
skip when the stored fingerprint matches, otherwise delete the file's
chunks, re-chunk, insert fresh rows and upsert the source record. -/
def indexOneFile (sha : Text → Text) (now : Nat) (db : DBState)
    (f : Text × Text) : DBState :=
  let fh := sha f.2
  let skip :=
    match lookupSource db f.1 with
    | some s => s.file_hash == fh
    | none => false
  if skip then db
  else
    let db1 := { db with
      chunks := db.chunks.filter (fun c => !(c.source_file == f.1)) }
    let db2 := insertChunks sha f.1 now (chunk_markdown_by_h2 f.2 f.1) db1
    { db2 with sources := upsertSource db2.sources ⟨f.1, fh, now⟩ }

/-- `_index_docs_incremental` (lines 256-308); `fs` is the sorted glob of
readable `*.md` files as (filename, text) pairs. -/
def index_docs_incremental (sha : Text → Text) (now : Nat)
    (fs : List (Text × Text)) (db : DBState) : DBState :=
  if fs = [] then db else fs.foldl (indexOneFile sha now) db

structure IndexCfg where
  docs_dir_exists : Bool
  enable_semantic : Bool
  has_api_key : Bool
  embedding_model : Text

/-- The `LEFT JOIN ... WHERE e.chunk_id IS NULL OR e.content_hash !=
c.content_hash` selection predicate (lines 352-361): a chunk needs an
embedding when no row exists for its id, or the row's model differs from
the configured one, or its fingerprint is stale. -/
def needsEmbedding (db : DBState) (model : Text) (c : ChunkRow) : Bool :=
  match db.embeddings.find? (fun e => e.chunk_id == c.id) with
  | none => true
  | some e => !(e.model == model) || !(e.content_hash == c.content_hash)

/-- The `pending` list (lines 366-368): `(id, content, content_hash)` of
every chunk selected by `needsEmbedding`, in table order. -/
def pendList (db : DBState) (model : Text) : List (Nat × Text × Text) :=
  (db.chunks.filter (needsEmbedding db model)).map
    (fun c => (c.id, c.content, c.content_hash))

/-- `INSERT INTO rag_embeddings ... ON CONFLICT(chunk_id) DO UPDATE SET
model, dim, embedding, content_hash, created_at` (lines 385-397). -/
def upsertEmbedding (embs : List EmbRow) (r : EmbRow) : List EmbRow :=
  if embs.any (fun e => e.chunk_id == r.chunk_id) then
    embs.map (fun e => if e.chunk_id == r.chunk_id then r else e)
  else embs ++ [r]

/-- The per-batch upsert loop (lines 380-397): zero-dimensional vectors
are skipped, every other `(item, vector)` pair is upserted. -/
def upsertBatch (model : Text) (now : Nat) (db : DBState)
    (pairs : List ((Nat × Text × Text) × List ℚ)) : DBState :=
  pairs.foldl (fun d pe =>
    if pe.2.length = 0 then d
    else { d with
      embeddings := upsertEmbedding d.embeddings
        ⟨pe.1.1, model, pe.2.length, pe.2, pe.1.2.2, now⟩ }) db

/-- The batch loop `for i in range(0, len(pending), batch_size)`
(lines 370-397): on `embedFn` failure the whole pass returns with the
state committed so far (the connection context manager commits on the
early `return`).  `fuel` bounds the recursion by the pending length. -/
def embedBatchesGo (embedFn : List Text → Option (List (List ℚ)))
    (model : Text) (now bs : Nat) :
    Nat → List (Nat × Text × Text) → DBState → DBState
  | 0, _, db => db
  | _ + 1, [], db => db
  | fuel + 1, p@(_ :: _), db =>
    match embedFn ((p.take bs).map (fun it => it.2.1)) with
    | none => db
    | some vs =>
      embedBatchesGo embedFn model now bs fuel (p.drop bs)
        (upsertBatch model now db ((p.take bs).zip vs))

/-- `_ensure_embeddings_cached` (lines 339-399) with the default batch
size 64. -/
def ensure_embeddings_cached (cfg : IndexCfg)
    (embedFn : List Text → Option (List (List ℚ))) (now : Nat)
    (db : DBState) : DBState :=
  if !cfg.enable_semantic then db
  else if !cfg.has_api_key then db
  else
    let pending := pendList db cfg.embedding_model
    if pending = [] then db
    else embedBatchesGo embedFn cfg.embedding_model now 64 pending.length pending db

/-- `ensure_index` (lines 167-254): no-op without the corpus directory;
otherwise incremental indexing, then the embedding pass when semantic
mode is enabled. -/
def ensure_index (cfg : IndexCfg) (sha : Text → Text)
    (embedFn : List Text → Option (List (List ℚ))) (now : Nat)
    (fs : List (Text × Text)) (db : DBState) : DBState :=
  if !cfg.docs_dir_exists then db
  else
    let db1 := index_docs_incremental sha now fs db
    if cfg.enable_semantic then ensure_embeddings_cached cfg embedFn now db1
    else db1

/-- The texts of batch `j` of a pending list. -/
def textsOfBatch (p : List (Nat × Text × Text)) (j : Nat) : List Text :=
  ((p.drop (64 * j)).take 64).map (fun it => it.2.1)

/-- The state after committing the first `j` batches of a caching pass
(stopping early at a failed batch). -/
def commitBatches (embedFn : List Text → Option (List (List ℚ)))
    (model : Text) (now : Nat) :
    DBState → List (Nat × Text × Text) → Nat → DBState
  | db, _, 0 => db
  | db, p, j + 1 =>
    match embedFn ((p.take 64).map (fun it => it.2.1)) with
    | none => db
    | some vs =>
      commitBatches embedFn model now
        (upsertBatch model now db ((p.take 64).zip vs)) (p.drop 64) j

/-- The chunk-table part of the schema invariant. -/
def ChunksInv (db : DBState) : Prop :=
  (db.chunks.map (fun c => c.id)).Nodup ∧ ∀ c ∈ db.chunks, c.id < db.nextId

/-! ## Theorems and supporting lemmas -/

/-! ## Chunker lemmas -/

lemma tailsAfterNL_cons_subset {c : Char} {rest : Text} :
    ∀ t ∈ tailsAfterNL rest, t ∈ tailsAfterNL (c :: rest) := by
  intro t ht
  by_cases hc : c = '\n'
  · simp [tailsAfterNL, hc]
    exact Or.inr ht
  · simpa [tailsAfterNL, hc] using ht

lemma splitH2Go_no_cut (s : Text) : ∀ (acc : Text) (flag : Bool),
    (flag = true → h2At s = false) →
    (∀ t ∈ tailsAfterNL s, h2At t = false) →
    splitH2Go flag acc s = [acc.reverse ++ s] := by
  induction s with
  | nil => intro acc flag _ _; simp [splitH2Go]
  | cons c rest ih =>
    intro acc flag hflag htails
    have hcut : ¬(flag && h2At (c :: rest)) = true := by
      cases flag
      · simp
      · simp [hflag rfl]
    rw [splitH2Go, if_neg hcut, ih (c :: acc) (c == '\n') ?_ ?_]
    · simp
    · intro hc
      have hc2 : c = '\n' := by simpa using hc
      exact htails rest (by simp [tailsAfterNL, hc2])
    · intro t ht
      exact htails t (tailsAfterNL_cons_subset t ht)

lemma splitH2_of_noH2 {s : Text} (h : noH2 s = true) : splitH2 s = [s] := by
  have h1 : h2At s = false ∧ ∀ t ∈ tailsAfterNL s, h2At t = false := by
    simpa [noH2] using h
  unfold splitH2
  rw [splitH2Go_no_cut s [] true (fun _ => h1.1) h1.2]
  simp

lemma matchHeadingAt2_none {t : Text} (h : h2At t = false) :
    matchHeadingAt 2 t = none := by
  match t with
  | [] => rfl
  | [c] =>
    have : ¬([c] = List.replicate 2 '#') := by simp [List.replicate]
    simp [matchHeadingAt, this]
  | c1 :: c2 :: u =>
    by_cases h12 : c1 = '#' ∧ c2 = '#'
    · obtain ⟨rfl, rfl⟩ := h12
      match u with
      | [] => rfl
      | c :: u2 =>
        have hc : isPySpace c = false := by simpa [h2At] using h
        simp [matchHeadingAt, matchTitleTail, List.takeWhile_cons, hc, List.replicate]
    · have hne : ¬(c1 :: c2 :: u).take 2 = List.replicate 2 '#' := by
        simp only [List.take, List.replicate]
        intro he
        exact h12 (by simpa using he)
      unfold matchHeadingAt
      rw [if_neg hne]

lemma searchHeading2_none_of_noH2 {s : Text} (h : noH2 s = true) :
    searchHeading 2 s = none := by
  have hall : ∀ t ∈ s :: tailsAfterNL s, h2At t = false := by
    simpa [noH2] using h
  unfold searchHeading
  rw [List.findSome?_eq_none_iff]
  intro t ht
  exact matchHeadingAt2_none (hall t ht)

lemma dropWhile_head_false {α : Type} {p : α → Bool} :
    ∀ {l : List α} {a : α} {t : List α}, l.dropWhile p = a :: t → p a = false := by
  intro l
  induction l with
  | nil => intro a t hyp; simp [List.dropWhile] at hyp
  | cons b bs ih =>
    intro a t hyp
    rw [List.dropWhile_cons] at hyp
    by_cases hb : p b = true
    · exact ih (by simpa [hb] using hyp)
    · rw [if_neg (by simp [hb])] at hyp
      cases hyp
      simpa using hb

lemma pyStrip_eq_self {l : Text}
    (h1 : ∃ c t, l = c :: t ∧ isPySpace c = false)
    (h2 : ∃ a u, l.reverse = a :: u ∧ isPySpace a = false) : pyStrip l = l := by
  obtain ⟨c, t, hl, hc⟩ := h1
  obtain ⟨a, u, hr, ha⟩ := h2
  unfold pyStrip
  rw [hl, List.dropWhile_cons, if_neg (by simp [hc]), ← hl, hr,
    List.dropWhile_cons, if_neg (by simp [ha]), ← hr, List.reverse_reverse]

lemma pyStrip_reverse_head {content : Text} (h : pyStrip content ≠ []) :
    ∃ a u, (pyStrip content).reverse = a :: u ∧ isPySpace a = false := by
  have hrev : (pyStrip content).reverse
      = ((content.dropWhile isPySpace).reverse).dropWhile isPySpace := by
    simp [pyStrip]
  have hne : (pyStrip content).reverse ≠ [] := by simpa using h
  rcases List.exists_cons_of_ne_nil hne with ⟨a, u, hat⟩
  refine ⟨a, u, hat, ?_⟩
  rw [hrev] at hat
  exact dropWhile_head_false hat

lemma provHeader_cons (f d S : Text) :
    provHeader f d ++ S
      = '[' :: (str "From: " ++ f ++ str "]\n# " ++ d ++ str "\n\n" ++ S) := by
  have hstr : str "[From: " = '[' :: str "From: " := rfl
  simp [provHeader, hstr]

lemma pyStrip_prov_append (f d content : Text) (hne : pyStrip content ≠ []) :
    pyStrip (provHeader f d ++ pyStrip content)
      = provHeader f d ++ pyStrip content := by
  apply pyStrip_eq_self
  · exact ⟨'[', _, provHeader_cons f d (pyStrip content), by decide⟩
  · obtain ⟨a, u, hat, ha⟩ := pyStrip_reverse_head hne
    refine ⟨a, u ++ (provHeader f d).reverse, ?_, ha⟩
    rw [List.reverse_append, hat, List.cons_append]

/-- C1 counterexample: the document `"hello"` contains no `## ` heading,
yet `chunk_markdown_by_h2` returns its single chunk with section title
`"Introduction"`, not `"Full"` (the `"Full"` branch fires only when every
split section strips to empty). -/
theorem c1_no_h2_counterexample :
    chunk_markdown_by_h2 (str "hello") (str "a.md")
      = [⟨str "[From: a.md]\n# a.md\n\nhello",
          str "a.md", str "a.md", str "Introduction"⟩]
    ∧ str "Introduction" ≠ str "Full" := by
  constructor
  · rfl
  · decide

/-- C1 (amended): for a document with no second-level heading (neither in
the raw text nor after stripping), `chunk_markdown_by_h2` returns exactly
one chunk whose body is the provenance header followed by the entire
stripped document; its section title is `"Introduction"` when the stripped
text is non-empty, and `"Full"` only when the document is whitespace-only. -/
theorem c1_chunk_no_h2 (content filename : Text)
    (h1 : noH2 content = true) (h2 : noH2 (pyStrip content) = true) :
    (pyStrip content ≠ [] →
      chunk_markdown_by_h2 content filename =
        [⟨provHeader filename (docTitleOf content filename) ++ pyStrip content,
          filename, docTitleOf content filename, str "Introduction"⟩]) ∧
    (pyStrip content = [] →
      chunk_markdown_by_h2 content filename =
        [⟨pyStrip (provHeader filename (docTitleOf content filename) ++ content),
          filename, docTitleOf content filename, str "Full"⟩]) := by
  constructor
  · intro hne
    unfold chunk_markdown_by_h2
    rw [splitH2_of_noH2 h1]
    simp only [List.filterMap_cons, List.filterMap_nil]
    rw [if_neg hne, searchHeading2_none_of_noH2 h2,
      pyStrip_prov_append filename (docTitleOf content filename) content hne]
    simp
  · intro hz
    unfold chunk_markdown_by_h2
    rw [splitH2_of_noH2 h1]
    simp only [List.filterMap_cons, List.filterMap_nil]
    rw [if_pos hz]
    simp

/-- C1 witness: the amended statement evaluated at `content = "hi"`,
`filename = "x.md"`. -/
theorem c1_chunk_no_h2_witness :
    noH2 (str "hi") = true ∧ noH2 (pyStrip (str "hi")) = true ∧
    chunk_markdown_by_h2 (str "hi") (str "x.md") =
      [⟨provHeader (str "x.md") (docTitleOf (str "hi") (str "x.md"))
          ++ pyStrip (str "hi"),
        str "x.md", docTitleOf (str "hi") (str "x.md"), str "Introduction"⟩] :=
  ⟨by decide, by decide,
    (c1_chunk_no_h2 (str "hi") (str "x.md") (by decide) (by decide)).1
      (by decide)⟩

lemma foldl_min_le_init (l : List ℚ) : ∀ a : ℚ, l.foldl min a ≤ a := by
  induction l with
  | nil => intro a; simp
  | cons x xs ih =>
    intro a
    calc xs.foldl min (min a x) ≤ min a x := ih (min a x)
    _ ≤ a := min_le_left a x

lemma foldl_min_le_mem (l : List ℚ) : ∀ (a v : ℚ), v ∈ l → l.foldl min a ≤ v := by
  induction l with
  | nil => intro a v hv; simp at hv
  | cons x xs ih =>
    intro a v hv
    rcases List.mem_cons.mp hv with h | h
    · subst h
      calc xs.foldl min (min a v) ≤ min a v := foldl_min_le_init xs (min a v)
      _ ≤ v := min_le_right a v
    · exact ih (min a x) v h

lemma listMin_le {l : List ℚ} {v : ℚ} (hv : v ∈ l) : listMin l ≤ v := by
  match l with
  | [] => simp at hv
  | x :: xs =>
    rcases List.mem_cons.mp hv with h | h
    · subst h; exact foldl_min_le_init xs v
    · exact foldl_min_le_mem xs x v h

lemma init_le_foldl_max (l : List ℚ) : ∀ a : ℚ, a ≤ l.foldl max a := by
  induction l with
  | nil => intro a; simp
  | cons x xs ih =>
    intro a
    calc a ≤ max a x := le_max_left a x
    _ ≤ xs.foldl max (max a x) := ih (max a x)

lemma mem_le_foldl_max (l : List ℚ) : ∀ (a v : ℚ), v ∈ l → v ≤ l.foldl max a := by
  induction l with
  | nil => intro a v hv; simp at hv
  | cons x xs ih =>
    intro a v hv
    rcases List.mem_cons.mp hv with h | h
    · subst h
      calc v ≤ max a v := le_max_right a v
      _ ≤ xs.foldl max (max a v) := init_le_foldl_max xs (max a v)
    · exact ih (max a x) v h

lemma le_listMax {l : List ℚ} {v : ℚ} (hv : v ∈ l) : v ≤ listMax l := by
  match l with
  | [] => simp at hv
  | x :: xs =>
    rcases List.mem_cons.mp hv with h | h
    · subst h; exact init_le_foldl_max xs v
    · exact mem_le_foldl_max xs x v h

lemma listMin_le_listMax {l : List ℚ} (h : l ≠ []) : listMin l ≤ listMax l := by
  rcases List.exists_cons_of_ne_nil h with ⟨x, xs, rfl⟩
  exact le_trans (listMin_le (List.mem_cons_self x xs)) (le_listMax (List.mem_cons_self x xs))

lemma foldl_min_mem (l : List ℚ) : ∀ a : ℚ, l.foldl min a ∈ a :: l := by
  induction l with
  | nil => intro a; simp
  | cons x xs ih =>
    intro a
    rw [List.foldl_cons]
    rcases List.mem_cons.mp (ih (min a x)) with h | h
    · rcases min_choice a x with hm | hm
      · rw [h, hm]; exact List.mem_cons_self _ _
      · rw [h, hm]; simp
    · simp [List.mem_cons_of_mem, h]

lemma listMin_mem {l : List ℚ} (h : l ≠ []) : listMin l ∈ l := by
  rcases List.exists_cons_of_ne_nil h with ⟨x, xs, rfl⟩
  exact foldl_min_mem xs x

lemma foldl_max_mem (l : List ℚ) : ∀ a : ℚ, l.foldl max a ∈ a :: l := by
  induction l with
  | nil => intro a; simp
  | cons x xs ih =>
    intro a
    rw [List.foldl_cons]
    rcases List.mem_cons.mp (ih (max a x)) with h | h
    · rcases max_choice a x with hm | hm
      · rw [h, hm]; exact List.mem_cons_self _ _
      · rw [h, hm]; simp
    · simp [List.mem_cons_of_mem, h]

lemma listMax_mem {l : List ℚ} (h : l ≠ []) : listMax l ∈ l := by
  rcases List.exists_cons_of_ne_nil h with ⟨x, xs, rfl⟩
  exact foldl_max_mem xs x

/-- C4: for every non-empty raw score map, `_normalize_bm25` and
`_normalize_01` return values in [0,1]; the best raw score (minimum for
bm25, maximum for the 0-1 normalizer) maps to exactly 1; and when all raw
scores are equal every candidate gets 1. -/
theorem c4_normalization_bounds (scores : List (Nat × ℚ)) (hne : scores ≠ []) :
    (∀ p ∈ normalize_bm25 scores, 0 ≤ p.2 ∧ p.2 ≤ 1) ∧
    (∀ p ∈ scores, p.2 = listMin (scores.map (fun q => q.2)) →
      (p.1, (1 : ℚ)) ∈ normalize_bm25 scores) ∧
    (∀ p ∈ normalize_01 scores, 0 ≤ p.2 ∧ p.2 ≤ 1) ∧
    (∀ p ∈ scores, p.2 = listMax (scores.map (fun q => q.2)) →
      (p.1, (1 : ℚ)) ∈ normalize_01 scores) ∧
    ((∀ p ∈ scores, ∀ q ∈ scores, p.2 = q.2) →
      normalize_bm25 scores = scores.map (fun p => (p.1, (1 : ℚ))) ∧
      normalize_01 scores = scores.map (fun p => (p.1, (1 : ℚ)))) := by
  set vals := scores.map (fun q => q.2) with hvals
  have hvne : vals ≠ [] := by
    intro hv
    exact hne (List.map_eq_nil_iff.mp hv)
  have hmn_le_mx : listMin vals ≤ listMax vals := listMin_le_listMax hvne
  by_cases hdeg : listMin vals = listMax vals
  · -- degenerate branch: everything maps to 1
    have hb : normalize_bm25 scores = scores.map (fun p => (p.1, (1 : ℚ))) := by
      unfold normalize_bm25
      rw [if_neg hne, ← hvals, if_pos hdeg]
    have h0 : normalize_01 scores = scores.map (fun p => (p.1, (1 : ℚ))) := by
      unfold normalize_01
      rw [if_neg hne, ← hvals, if_pos hdeg]
    refine ⟨?_, ?_, ?_, ?_, fun _ => ⟨hb, h0⟩⟩
    · intro p hp
      rw [hb] at hp
      obtain ⟨q, _, rfl⟩ := List.mem_map.mp hp
      norm_num
    · intro p hp _
      rw [hb]
      exact List.mem_map.mpr ⟨p, hp, rfl⟩
    · intro p hp
      rw [h0] at hp
      obtain ⟨q, _, rfl⟩ := List.mem_map.mp hp
      norm_num
    · intro p hp _
      rw [h0]
      exact List.mem_map.mpr ⟨p, hp, rfl⟩
  · have hrng : 0 < listMax vals - listMin vals :=
      sub_pos.mpr (lt_of_le_of_ne hmn_le_mx hdeg)
    have hb : normalize_bm25 scores
        = scores.map (fun p => (p.1, (listMax vals - p.2) / (listMax vals - listMin vals))) := by
      unfold normalize_bm25
      rw [if_neg hne, ← hvals, if_neg hdeg]
    have h0 : normalize_01 scores
        = scores.map (fun p => (p.1, (p.2 - listMin vals) / (listMax vals - listMin vals))) := by
      unfold normalize_01
      rw [if_neg hne, ← hvals, if_neg hdeg]
    refine ⟨?_, ?_, ?_, ?_, ?_⟩
    · intro p hp
      rw [hb] at hp
      obtain ⟨q, hq, rfl⟩ := List.mem_map.mp hp
      have hq2 : q.2 ∈ vals := List.mem_map.mpr ⟨q, hq, rfl⟩
      constructor
      · exact div_nonneg (sub_nonneg.mpr (le_listMax hq2)) (le_of_lt hrng)
      · rw [div_le_one hrng]
        exact sub_le_sub_left (listMin_le hq2) _
    · intro p hp hmin
      rw [hb]
      have : (listMax vals - p.2) / (listMax vals - listMin vals) = 1 := by
        rw [hmin]
        exact div_self (ne_of_gt hrng)
      exact List.mem_map.mpr ⟨p, hp, by rw [this]⟩
    · intro p hp
      rw [h0] at hp
      obtain ⟨q, hq, rfl⟩ := List.mem_map.mp hp
      have hq2 : q.2 ∈ vals := List.mem_map.mpr ⟨q, hq, rfl⟩
      constructor
      · exact div_nonneg (sub_nonneg.mpr (listMin_le hq2)) (le_of_lt hrng)
      · rw [div_le_one hrng]
        exact sub_le_sub_right (le_listMax hq2) _
    · intro p hp hmax
      rw [h0]
      have : (p.2 - listMin vals) / (listMax vals - listMin vals) = 1 := by
        rw [hmax]
        exact div_self (ne_of_gt hrng)
      exact List.mem_map.mpr ⟨p, hp, by rw [this]⟩
    · intro hall
      exfalso
      have hmn : listMin vals ∈ vals := listMin_mem hvne
      have hmx : listMax vals ∈ vals := listMax_mem hvne
      obtain ⟨pm, hpm, hpm2⟩ := List.mem_map.mp hmn
      obtain ⟨px, hpx, hpx2⟩ := List.mem_map.mp hmx
      exact hdeg (by rw [← hpm2, ← hpx2, hall pm hpm px hpx])

/-- C4 witness: the statement applied to the raw bm25 map
`{1: -3, 2: -1}`. -/
theorem c4_normalization_bounds_witness :
    ((1 : Nat), (1 : ℚ)) ∈ normalize_bm25 [(1, -3), (2, -1)]
    ∧ ((2 : Nat), (1 : ℚ)) ∈ normalize_01 [(1, -3), (2, -1)] :=
  ⟨(c4_normalization_bounds [(1, -3), (2, -1)] (by decide)).2.1
      (1, -3) (by decide) (by decide),
    (c4_normalization_bounds [(1, -3), (2, -1)] (by decide)).2.2.2.1
      (2, -1) (by decide) (by decide)⟩

lemma pyStrip_length_le (l : Text) : (pyStrip l).length ≤ l.length := by
  unfold pyStrip
  calc ((l.dropWhile isPySpace).reverse.dropWhile isPySpace).reverse.length
      = ((l.dropWhile isPySpace).reverse.dropWhile isPySpace).length := by
        rw [List.length_reverse]
    _ ≤ (l.dropWhile isPySpace).reverse.length :=
        (List.dropWhile_sublist _).length_le
    _ = (l.dropWhile isPySpace).length := by rw [List.length_reverse]
    _ ≤ l.length := (List.dropWhile_sublist _).length_le

lemma joinSep_nl_length : ∀ parts : List Text,
    ((joinSep (str "\n") parts).length : ℤ) ≤ textsLen parts + parts.length := by
  intro parts
  induction parts with
  | nil => simp [joinSep, textsLen]
  | cons p rest ih =>
    cases rest with
    | nil => simp [joinSep, textsLen]
    | cons q rest2 =>
      have hstep : joinSep (str "\n") (p :: q :: rest2)
          = p ++ str "\n" ++ joinSep (str "\n") (q :: rest2) := rfl
      have hlen : (joinSep (str "\n") (p :: q :: rest2)).length
          = p.length + 1 + (joinSep (str "\n") (q :: rest2)).length := by
        rw [hstep]
        simp [List.length_append, str]
        omega
      have htl : textsLen (p :: q :: rest2) = (p.length : ℤ) + textsLen (q :: rest2) := by
        simp [textsLen]
      rw [hlen, htl]
      have hc : ((p :: q :: rest2).length : ℤ) = 1 + ((q :: rest2).length : ℤ) := by
        simp
        omega
      rw [hc]
      push_cast
      linarith

lemma fcGo_sum_le (N : ℤ) : ∀ (hits : List RAGHit) (i : Nat) (used : ℤ),
    textsLen (fcGo N i used hits) ≤ max 0 (N - 3 - used) := by
  intro hits
  induction hits with
  | nil => intro i used; simp [fcGo, textsLen]
  | cons hit rest ih =>
    intro i used
    rw [fcGo]
    by_cases hav : N - used - ((fmtHeader i hit).length : ℤ) - 5 ≤ 200
    · rw [if_pos hav]
      simp [textsLen]
    · rw [if_neg hav]
      have hav2 : 200 < N - used - ((fmtHeader i hit).length : ℤ) - 5 := not_le.mp hav
      set header := fmtHeader i hit with hh
      set body := pyStrip hit.content with hb
      set avail : ℤ := N - used - (header.length : ℤ) - 5 with hA
      set body2 :=
        if (body.length : ℤ) > avail then body.take (avail - 3).toNat ++ str "..."
        else body with hb2
      have hbody2 : (body2.length : ℤ) ≤ avail := by
        rw [hb2]
        by_cases hlong : (body.length : ℤ) > avail
        · rw [if_pos hlong]
          have h3 : (0 : ℤ) ≤ avail - 3 := by omega
          have htk : (body.take (avail - 3).toNat).length ≤ (avail - 3).toNat :=
            List.length_take_le _ _
          have hlen2 : ((body.take (avail - 3).toNat ++ str "...").length : ℤ)
              = ((body.take (avail - 3).toNat).length : ℤ) + 3 := by
            simp [List.length_append, str]
          rw [hlen2]
          have : (((avail - 3).toNat : ℤ)) = avail - 3 := Int.toNat_of_nonneg h3
          omega
        · rw [if_neg hlong]
          exact le_of_not_lt hlong
      set entry := header ++ str "\n" ++ body2 ++ str "\n" with he
      have hentry : (entry.length : ℤ) ≤ N - used - 3 := by
        have hlen3 : entry.length = header.length + body2.length + 2 := by
          rw [he]
          simp [List.length_append, str]
          omega
        rw [hlen3]
        push_cast
        omega
      have hrec := ih (i + 1) (used + (entry.length : ℤ))
      have hmax : max 0 (N - 3 - (used + (entry.length : ℤ)))
          = N - 3 - used - (entry.length : ℤ) := by
        rw [max_eq_right] <;> omega
      rw [hmax] at hrec
      calc textsLen (entry :: fcGo N (i + 1) (used + (entry.length : ℤ)) rest)
          = (entry.length : ℤ) + textsLen (fcGo N (i + 1) (used + (entry.length : ℤ)) rest) := by
            simp [textsLen]
        _ ≤ (entry.length : ℤ) + (N - 3 - used - (entry.length : ℤ)) := by linarith
        _ = N - 3 - used := by ring
        _ ≤ max 0 (N - 3 - used) := le_max_right 0 _

lemma fcGo_length_le (N : ℤ) : ∀ (hits : List RAGHit) (i : Nat) (used : ℤ),
    (fcGo N i used hits).length ≤ hits.length := by
  intro hits
  induction hits with
  | nil => intro i used; simp [fcGo]
  | cons hit rest ih =>
    intro i used
    rw [fcGo]
    by_cases hav : N - used - ((fmtHeader i hit).length : ℤ) - 5 ≤ 200
    · rw [if_pos hav]; simp
    · rw [if_neg hav]
      simp only [List.length_cons]
      exact Nat.succ_le_succ (ih (i + 1) _)

/-- C6: `format_context` output length is bounded by the budget `N`
(precisely, by `max 0 (N - 3)` plus one joining newline per hit), and no
entry at all is emitted once the remaining budget
`N - used - len(header) - 5` is at most 200 — in particular a budget near
the first header's length yields the empty string. -/
theorem c6_format_context_budget (hits : List RAGHit) (N : ℤ) :
    ((format_context hits N).length : ℤ) ≤ max 0 (N - 3) + hits.length ∧
    (∀ hit rest, hits = hit :: rest →
      N - ((fmtHeader 1 hit).length : ℤ) - 5 ≤ 200 →
      format_context hits N = []) := by
  constructor
  · by_cases hnil : hits = []
    · subst hnil
      simp [format_context]
    · unfold format_context
      rw [if_neg hnil]
      set parts := fcGo N 1 0 hits with hp
      have h1 : ((pyStrip (joinSep (str "\n") parts)).length : ℤ)
          ≤ ((joinSep (str "\n") parts).length : ℤ) := by
        exact_mod_cast pyStrip_length_le _
      have h2 := joinSep_nl_length parts
      have h3 := fcGo_sum_le N hits 1 0
      rw [← hp] at h3
      have h4 : (parts.length : ℤ) ≤ (hits.length : ℤ) := by
        exact_mod_cast fcGo_length_le N hits 1 0
      have h5 : max 0 (N - 3 - 0) = max 0 (N - 3) := by norm_num
      rw [h5] at h3
      linarith
  · intro hit rest hcons hsmall
    subst hcons
    have hfc : fcGo N 1 0 (hit :: rest) = [] := by
      simp only [fcGo]
      rw [if_pos (show N - 0 - ((fmtHeader 1 hit).length : ℤ) - 5 ≤ 200 by omega)]
    calc format_context (hit :: rest) N
        = pyStrip (joinSep (str "\n") (fcGo N 1 0 (hit :: rest))) := by
          rw [format_context, if_neg (by simp)]
      _ = pyStrip (joinSep (str "\n") []) := by rw [hfc]
      _ = [] := rfl

/-- C6 witness: a budget of 10 with a 23-character header emits nothing. -/
theorem c6_format_context_budget_witness :
    format_context [⟨1, str "a", str "b", str "c", 0, 0, 0⟩] 10 = [] :=
  (c6_format_context_budget [⟨1, str "a", str "b", str "c", 0, 0, 0⟩] 10).2
    ⟨1, str "a", str "b", str "c", 0, 0, 0⟩ [] rfl (by decide)

/-! ## Retrieval lemmas -/

lemma mem_insertHitDesc {x y : RAGHit} :
    ∀ {l : List RAGHit}, x ∈ insertHitDesc y l → x = y ∨ x ∈ l := by
  intro l
  induction l with
  | nil =>
    intro hx
    rw [insertHitDesc] at hx
    exact Or.inl (List.mem_singleton.mp hx)
  | cons z zs ih =>
    intro hx
    rw [insertHitDesc] at hx
    by_cases hc : z.final_score ≤ y.final_score
    · rw [if_pos hc] at hx
      exact List.mem_cons.mp hx
    · rw [if_neg hc] at hx
      rcases List.mem_cons.mp hx with h | h
      · exact Or.inr (h ▸ List.mem_cons_self z zs)
      · rcases ih h with h2 | h2
        · exact Or.inl h2
        · exact Or.inr (List.mem_cons_of_mem z h2)

lemma mem_sortHitsDesc {x : RAGHit} :
    ∀ {l : List RAGHit}, x ∈ sortHitsDesc l → x ∈ l := by
  intro l
  induction l with
  | nil => intro hx; simp [sortHitsDesc] at hx
  | cons z zs ih =>
    intro hx
    have hx2 : x ∈ insertHitDesc z (sortHitsDesc zs) := hx
    rcases mem_insertHitDesc hx2 with h | h
    · exact h ▸ List.mem_cons_self z zs
    · exact List.mem_cons_of_mem z (ih h)

lemma normalize_bm25_eq_nil_iff (l : List (Nat × ℚ)) :
    normalize_bm25 l = [] ↔ l = [] := by
  constructor
  · intro h
    by_contra hne
    unfold normalize_bm25 at h
    rw [if_neg hne] at h
    by_cases hd : listMin (l.map fun p => p.2) = listMax (l.map fun p => p.2)
    · rw [if_pos hd] at h
      exact hne (List.map_eq_nil_iff.mp h)
    · rw [if_neg hd] at h
      exact hne (List.map_eq_nil_iff.mp h)
  · intro h
    rw [h]
    rfl

lemma normalize_01_eq_nil_iff (l : List (Nat × ℚ)) :
    normalize_01 l = [] ↔ l = [] := by
  constructor
  · intro h
    by_contra hne
    unfold normalize_01 at h
    rw [if_neg hne] at h
    by_cases hd : listMin (l.map fun p => p.2) = listMax (l.map fun p => p.2)
    · rw [if_pos hd] at h
      exact hne (List.map_eq_nil_iff.mp h)
    · rw [if_neg hd] at h
      exact hne (List.map_eq_nil_iff.mp h)
  · intro h
    rw [h]
    rfl

lemma retrieveHits_mem {cfg : RetrieveCfg} {env : RetrieveEnv} {query : Text}
    {tk bl sl : Nat} {hit : RAGHit}
    (hmem : hit ∈ retrieveHits cfg env query tk bl sl) :
    ∃ r, hit = mkHit cfg (normalize_bm25 (retrieveBm25Hits env query bl))
      (normalize_01 (retrieveSemanticHits cfg env query sl)) r := by
  unfold retrieveHits at hmem
  by_cases hc : retrieveBm25Hits env query bl = []
      ∧ retrieveSemanticHits cfg env query sl = []
  · rw [if_pos hc] at hmem
    simp at hmem
  · rw [if_neg hc] at hmem
    have h1 := List.take_subset _ _ hmem
    have h2 := mem_sortHitsDesc h1
    obtain ⟨r, _, hr⟩ := List.mem_map.mp h2
    exact ⟨r, hr.symm⟩

lemma retrieve_hits_eq (cfg : RetrieveCfg) (env : RetrieveEnv) (q : Text)
    (tk : Nat) (mc : ℤ) (bl sl : Nat) :
    (retrieve cfg env q tk mc bl sl).1.2
      = if pyStrip q = [] then []
        else retrieveHits cfg env (pyStrip q) tk bl sl := by
  by_cases hq : pyStrip q = []
  · simp [retrieve, hq]
  · simp [retrieve, hq]

/-- C7: an empty or whitespace-only query returns an empty context and an
empty hit list, with an empty store-event trace: no lazy `ensure_index`,
no connection, no embedding pass. -/
theorem c7_empty_query (cfg : RetrieveCfg) (env : RetrieveEnv) (q : Text)
    (top_k : Nat) (max_chars : ℤ) (bm25_limit semantic_limit : Nat)
    (hq : pyStrip q = []) :
    retrieve cfg env q top_k max_chars bm25_limit semantic_limit
      = (([], []), []) := by
  simp [retrieve, hq]

/-- C7 witness: the whitespace query `"  \n"` against a concrete store. -/
theorem c7_empty_query_witness :
    retrieve ⟨true, true, str "m", 6/10, 4/10⟩
      ⟨true, fun _ _ => Except.ok [], [], fun _ => [], [], fun _ _ => 0⟩
      (str "  \n") 8 4000 100 100 = (([], []), []) :=
  c7_empty_query _ _ _ _ _ _ _ (by decide)

/-- C5: if only one signal produced candidates in a `retrieve` call, every
hit's final score is exactly that signal's normalized value (the weighted
blend is never applied); in particular with zero semantic candidates the
final scores equal the normalized lexical scores. -/
theorem c5_fusion_single_signal (cfg : RetrieveCfg) (env : RetrieveEnv)
    (q : Text) (top_k : Nat) (max_chars : ℤ) (bm25_limit semantic_limit : Nat) :
    (retrieveSemanticHits cfg env (pyStrip q) semantic_limit = [] →
      ∀ hit ∈ (retrieve cfg env q top_k max_chars bm25_limit semantic_limit).1.2,
        hit.final_score = dictGet
          (normalize_bm25 (retrieveBm25Hits env (pyStrip q) bm25_limit))
          hit.chunk_id 0
        ∧ hit.final_score = hit.bm25_score) ∧
    (retrieveBm25Hits env (pyStrip q) bm25_limit = [] →
      ∀ hit ∈ (retrieve cfg env q top_k max_chars bm25_limit semantic_limit).1.2,
        hit.final_score = dictGet
          (normalize_01 (retrieveSemanticHits cfg env (pyStrip q) semantic_limit))
          hit.chunk_id 0
        ∧ hit.final_score = hit.semantic_score) := by
  constructor
  · intro hsem hit hmem
    rw [retrieve_hits_eq] at hmem
    by_cases hq : pyStrip q = []
    · rw [if_pos hq] at hmem
      simp at hmem
    · rw [if_neg hq] at hmem
      obtain ⟨r, rfl⟩ := retrieveHits_mem hmem
      have hsemN : normalize_01 (retrieveSemanticHits cfg env (pyStrip q) semantic_limit)
          = [] := by
        rw [hsem]
        rfl
      constructor
      · simp [mkHit, hsemN]
      · simp [mkHit, hsemN]
  · intro hbm hit hmem
    rw [retrieve_hits_eq] at hmem
    by_cases hq : pyStrip q = []
    · rw [if_pos hq] at hmem
      simp at hmem
    · rw [if_neg hq] at hmem
      by_cases hsem0 : retrieveSemanticHits cfg env (pyStrip q) semantic_limit = []
      · exfalso
        unfold retrieveHits at hmem
        rw [if_pos ⟨hbm, hsem0⟩] at hmem
        simp at hmem
      · obtain ⟨r, rfl⟩ := retrieveHits_mem hmem
        have hbmN : normalize_bm25 (retrieveBm25Hits env (pyStrip q) bm25_limit)
            = [] := by
          rw [hbm]
          rfl
        have hsemN : normalize_01 (retrieveSemanticHits cfg env (pyStrip q) semantic_limit)
            ≠ [] := fun hc => hsem0 ((normalize_01_eq_nil_iff _).mp hc)
        constructor
        · simp [mkHit, hbmN, hsemN]
        · simp [mkHit, hbmN, hsemN]

/-- C5 witness: semantic disabled, one lexical candidate; the returned
hit's final score is the normalized lexical score. -/
theorem c5_fusion_single_signal_witness :
    retrieveSemanticHits ⟨false, false, str "m", 6/10, 4/10⟩
        ⟨true, fun _ _ => Except.ok [(7, -4)],
         [⟨7, str "d.md", str "S", str "text", str "hh", 0⟩],
         fun _ => [], [], fun _ _ => 0⟩ (pyStrip (str "word")) 100 = []
    ∧ ((⟨7, str "d.md", str "S", str "text", 1, 0, 1⟩ : RAGHit).final_score
        = dictGet
          (normalize_bm25 (retrieveBm25Hits
            ⟨true, fun _ _ => Except.ok [(7, -4)],
             [⟨7, str "d.md", str "S", str "text", str "hh", 0⟩],
             fun _ => [], [], fun _ _ => 0⟩ (pyStrip (str "word")) 100))
          (⟨7, str "d.md", str "S", str "text", 1, 0, 1⟩ : RAGHit).chunk_id 0
      ∧ (⟨7, str "d.md", str "S", str "text", 1, 0, 1⟩ : RAGHit).final_score
        = (⟨7, str "d.md", str "S", str "text", 1, 0, 1⟩ : RAGHit).bm25_score) :=
  ⟨by decide,
    (c5_fusion_single_signal ⟨false, false, str "m", 6/10, 4/10⟩
      ⟨true, fun _ _ => Except.ok [(7, -4)],
       [⟨7, str "d.md", str "S", str "text", str "hh", 0⟩],
       fun _ => [], [], fun _ _ => 0⟩ (str "word") 8 4000 100 100).1 (by decide)
      ⟨7, str "d.md", str "S", str "text", 1, 0, 1⟩ (by decide)⟩

unseal Rat.mul Rat.add Rat.sub Rat.inv in
/-- C9 counterexample: `retrieve` stores the *normalized* scores on each
hit, not the raw ones.  With raw bm25 scores `{1: -5, 2: -2}` the returned
hits carry `bm25_score` 1 and 0 while the raw score of chunk 1 is -5. -/
theorem c9_hit_scores_counterexample :
    ((retrieve ⟨false, false, str "m", 6/10, 4/10⟩
        ⟨true, fun _ _ => Except.ok [(1, -5), (2, -2)],
         [⟨1, str "a.md", str "T", str "alpha", str "h1", 0⟩,
          ⟨2, str "a.md", str "U", str "beta", str "h2", 0⟩],
         fun _ => [], [], fun _ _ => 0⟩
        (str "hello") 8 4000 100 100).1.2.map
      (fun h => (h.chunk_id, h.bm25_score))) = [(1, 1), (2, 0)]
    ∧ dictGet (retrieveBm25Hits
        ⟨true, fun _ _ => Except.ok [(1, -5), (2, -2)],
         [⟨1, str "a.md", str "T", str "alpha", str "h1", 0⟩,
          ⟨2, str "a.md", str "U", str "beta", str "h2", 0⟩],
         fun _ => [], [], fun _ _ => 0⟩ (pyStrip (str "hello")) 100) 1 0 = -5
    ∧ ((1 : ℚ) = -5 → False) := by
  refine ⟨by decide, by decide, by decide⟩

/-- C9 (amended): every hit returned by `retrieve` carries the
*normalized* lexical score and the *normalized* semantic score for its
chunk (0 when the chunk is absent from a signal), and its fused final
score is computed from exactly those two stored values. -/
theorem c9_hit_scores (cfg : RetrieveCfg) (env : RetrieveEnv) (q : Text)
    (top_k : Nat) (max_chars : ℤ) (bm25_limit semantic_limit : Nat) :
    ∀ hit ∈ (retrieve cfg env q top_k max_chars bm25_limit semantic_limit).1.2,
      hit.bm25_score = dictGet
        (normalize_bm25 (retrieveBm25Hits env (pyStrip q) bm25_limit))
        hit.chunk_id 0
      ∧ hit.semantic_score = dictGet
        (normalize_01 (retrieveSemanticHits cfg env (pyStrip q) semantic_limit))
        hit.chunk_id 0
      ∧ hit.final_score =
        (if normalize_01 (retrieveSemanticHits cfg env (pyStrip q) semantic_limit)
            = [] then hit.bm25_score
         else if normalize_bm25 (retrieveBm25Hits env (pyStrip q) bm25_limit)
            = [] then hit.semantic_score
         else cfg.keyword_weight * hit.bm25_score
              + cfg.semantic_weight * hit.semantic_score) := by
  intro hit hmem
  rw [retrieve_hits_eq] at hmem
  by_cases hq : pyStrip q = []
  · rw [if_pos hq] at hmem
    simp at hmem
  · rw [if_neg hq] at hmem
    obtain ⟨r, rfl⟩ := retrieveHits_mem hmem
    refine ⟨by simp [mkHit], by simp [mkHit], ?_⟩
    by_cases h1 : normalize_01 (retrieveSemanticHits cfg env (pyStrip q) semantic_limit)
        = []
    · simp [mkHit, h1]
    · by_cases h2 : normalize_bm25 (retrieveBm25Hits env (pyStrip q) bm25_limit) = []
      · simp [mkHit, h1, h2]
      · simp [mkHit, h1, h2]

/-- C9 witness: the amended statement at a one-candidate store,
instantiated at the returned hit. -/
theorem c9_hit_scores_witness :
    (⟨3, str "e.md", str "V", str "body", 1, 0, 1⟩ : RAGHit).bm25_score
      = dictGet
        (normalize_bm25 (retrieveBm25Hits
          ⟨true, fun _ _ => Except.ok [(3, -9)],
           [⟨3, str "e.md", str "V", str "body", str "hv", 0⟩],
           fun _ => [], [], fun _ _ => 0⟩ (pyStrip (str "topic")) 100))
        (⟨3, str "e.md", str "V", str "body", 1, 0, 1⟩ : RAGHit).chunk_id 0
    ∧ (⟨3, str "e.md", str "V", str "body", 1, 0, 1⟩ : RAGHit).semantic_score
      = dictGet
        (normalize_01 (retrieveSemanticHits ⟨false, false, str "m", 6/10, 4/10⟩
          ⟨true, fun _ _ => Except.ok [(3, -9)],
           [⟨3, str "e.md", str "V", str "body", str "hv", 0⟩],
           fun _ => [], [], fun _ _ => 0⟩ (pyStrip (str "topic")) 100))
        (⟨3, str "e.md", str "V", str "body", 1, 0, 1⟩ : RAGHit).chunk_id 0
    ∧ (⟨3, str "e.md", str "V", str "body", 1, 0, 1⟩ : RAGHit).final_score =
      (if normalize_01 (retrieveSemanticHits ⟨false, false, str "m", 6/10, 4/10⟩
          ⟨true, fun _ _ => Except.ok [(3, -9)],
           [⟨3, str "e.md", str "V", str "body", str "hv", 0⟩],
           fun _ => [], [], fun _ _ => 0⟩ (pyStrip (str "topic")) 100)
          = [] then (⟨3, str "e.md", str "V", str "body", 1, 0, 1⟩ : RAGHit).bm25_score
       else if normalize_bm25 (retrieveBm25Hits
          ⟨true, fun _ _ => Except.ok [(3, -9)],
           [⟨3, str "e.md", str "V", str "body", str "hv", 0⟩],
           fun _ => [], [], fun _ _ => 0⟩ (pyStrip (str "topic")) 100)
          = [] then (⟨3, str "e.md", str "V", str "body", 1, 0, 1⟩ : RAGHit).semantic_score
       else (⟨false, false, str "m", 6/10, 4/10⟩ : RetrieveCfg).keyword_weight
              * (⟨3, str "e.md", str "V", str "body", 1, 0, 1⟩ : RAGHit).bm25_score
            + (⟨false, false, str "m", 6/10, 4/10⟩ : RetrieveCfg).semantic_weight
              * (⟨3, str "e.md", str "V", str "body", 1, 0, 1⟩ : RAGHit).semantic_score) :=
  c9_hit_scores ⟨false, false, str "m", 6/10, 4/10⟩
    ⟨true, fun _ _ => Except.ok [(3, -9)],
     [⟨3, str "e.md", str "V", str "body", str "hv", 0⟩],
     fun _ => [], [], fun _ _ => 0⟩ (str "topic") 8 4000 100 100
    ⟨3, str "e.md", str "V", str "body", 1, 0, 1⟩ (by decide)

lemma upsertEmbedding_ids_of_any {embs : List EmbRow} {r : EmbRow}
    (hany : embs.any (fun e => e.chunk_id == r.chunk_id) = true) :
    (upsertEmbedding embs r).map (fun e => e.chunk_id)
      = embs.map (fun e => e.chunk_id) := by
  unfold upsertEmbedding
  rw [if_pos hany, List.map_map]
  apply List.map_congr_left
  intro e _
  simp only [Function.comp]
  by_cases hc : e.chunk_id = r.chunk_id
  · simp [hc]
  · simp [hc]

lemma upsertEmbedding_ids_nodup {embs : List EmbRow} {r : EmbRow}
    (hnd : (embs.map (fun e => e.chunk_id)).Nodup) :
    ((upsertEmbedding embs r).map (fun e => e.chunk_id)).Nodup := by
  by_cases hany : embs.any (fun e => e.chunk_id == r.chunk_id) = true
  · rw [upsertEmbedding_ids_of_any hany]
    exact hnd
  · unfold upsertEmbedding
    rw [if_neg hany]
    have hnotin : r.chunk_id ∉ embs.map (fun e => e.chunk_id) := by
      intro hmem
      obtain ⟨e, he, heq⟩ := List.mem_map.mp hmem
      exact hany (List.any_eq_true.mpr ⟨e, he, by simp [heq]⟩)
    rw [List.map_append]
    simp [List.nodup_append, hnd, hnotin]

lemma find_map_self (r : EmbRow) : ∀ {es : List EmbRow},
    es.any (fun e => e.chunk_id == r.chunk_id) = true →
    (es.map (fun e => if e.chunk_id == r.chunk_id then r else e)).find?
        (fun e => e.chunk_id == r.chunk_id) = some r := by
  intro es
  induction es with
  | nil => intro hyp; simp at hyp
  | cons e es ih =>
    intro hyp
    by_cases hc : e.chunk_id = r.chunk_id
    · simp only [List.map_cons]
      rw [if_pos (by simp [hc])]
      exact List.find?_cons_of_pos _ (by simp)
    · simp only [List.map_cons]
      rw [if_neg (by simp [hc])]
      rw [List.find?_cons_of_neg _ (by simp [hc])]
      apply ih
      simpa [List.any_cons, hc] using hyp

lemma find_append_self (r : EmbRow) : ∀ {es : List EmbRow},
    es.any (fun e => e.chunk_id == r.chunk_id) = false →
    (es ++ [r]).find? (fun e => e.chunk_id == r.chunk_id) = some r := by
  intro es
  induction es with
  | nil =>
    intro _
    exact List.find?_cons_of_pos _ (by simp)
  | cons e es ih =>
    intro hyp
    rw [List.cons_append, List.find?_cons_of_neg _ (by
      intro hpe
      rw [List.any_cons, hpe] at hyp
      simp at hyp)]
    apply ih
    rw [List.any_cons] at hyp
    exact (Bool.or_eq_false_iff.mp hyp).2

lemma upsertEmbedding_find_self (embs : List EmbRow) (r : EmbRow) :
    (upsertEmbedding embs r).find? (fun e => e.chunk_id == r.chunk_id)
      = some r := by
  unfold upsertEmbedding
  by_cases hany : embs.any (fun e => e.chunk_id == r.chunk_id) = true
  · rw [if_pos hany]
    exact find_map_self r hany
  · rw [if_neg hany]
    exact find_append_self r (Bool.not_eq_true _ ▸ Bool.of_not_eq_true hany)

lemma find_map_other {r : EmbRow} {cid : Nat} (hcid : cid ≠ r.chunk_id) :
    ∀ es : List EmbRow,
      (es.map (fun e => if e.chunk_id == r.chunk_id then r else e)).find?
          (fun e => e.chunk_id == cid)
        = es.find? (fun e => e.chunk_id == cid) := by
  intro es
  induction es with
  | nil => rfl
  | cons e es ih =>
    by_cases hc : e.chunk_id = r.chunk_id
    · simp only [List.map_cons]
      rw [if_pos (by simp [hc])]
      rw [List.find?_cons_of_neg _ (by simp [Ne.symm hcid]),
        List.find?_cons_of_neg _ (by simp [hc ▸ Ne.symm hcid])]
      · exact ih
    · simp only [List.map_cons]
      rw [if_neg (by simp [hc])]
      by_cases hp : e.chunk_id = cid
      · rw [List.find?_cons_of_pos _ (by simp [hp]),
          List.find?_cons_of_pos _ (by simp [hp])]
      · rw [List.find?_cons_of_neg _ (by simp [hp]),
          List.find?_cons_of_neg _ (by simp [hp])]
        exact ih

lemma find_append_other {r : EmbRow} {cid : Nat} (hcid : cid ≠ r.chunk_id) :
    ∀ es : List EmbRow,
      (es ++ [r]).find? (fun e => e.chunk_id == cid)
        = es.find? (fun e => e.chunk_id == cid) := by
  intro es
  induction es with
  | nil =>
    rw [List.nil_append]
    rw [List.find?_cons_of_neg _ (by simp [Ne.symm hcid])]
  | cons e es ih =>
    by_cases hp : e.chunk_id = cid
    · rw [List.cons_append, List.find?_cons_of_pos _ (by simp [hp]),
        List.find?_cons_of_pos _ (by simp [hp])]
    · rw [List.cons_append, List.find?_cons_of_neg _ (by simp [hp]),
        List.find?_cons_of_neg _ (by simp [hp])]
      exact ih

lemma upsertEmbedding_find_other (embs : List EmbRow) (r : EmbRow)
    {cid : Nat} (hcid : cid ≠ r.chunk_id) :
    (upsertEmbedding embs r).find? (fun e => e.chunk_id == cid)
      = embs.find? (fun e => e.chunk_id == cid) := by
  unfold upsertEmbedding
  by_cases hany : embs.any (fun e => e.chunk_id == r.chunk_id) = true
  · rw [if_pos hany]
    exact find_map_other hcid embs
  · rw [if_neg hany]
    exact find_append_other hcid embs

lemma upsertBatch_frame (model : Text) (now : Nat) :
    ∀ (pairs : List ((Nat × Text × Text) × List ℚ)) (db : DBState),
      (upsertBatch model now db pairs).chunks = db.chunks
      ∧ (upsertBatch model now db pairs).sources = db.sources
      ∧ (upsertBatch model now db pairs).nextId = db.nextId
      ∧ ((db.embeddings.map (fun e => e.chunk_id)).Nodup →
          ((upsertBatch model now db pairs).embeddings.map
            (fun e => e.chunk_id)).Nodup) := by
  intro pairs
  induction pairs with
  | nil => intro db; exact ⟨rfl, rfl, rfl, fun hnd => hnd⟩
  | cons pe pes ih =>
    intro db
    by_cases hz : pe.2.length = 0
    · have hstep : upsertBatch model now db (pe :: pes)
          = upsertBatch model now db pes := by
        unfold upsertBatch
        rw [List.foldl_cons, if_pos hz]
      rw [hstep]
      exact ih db
    · have hstep : upsertBatch model now db (pe :: pes)
          = upsertBatch model now
            { db with
              embeddings := upsertEmbedding db.embeddings
                ⟨pe.1.1, model, pe.2.length, pe.2, pe.1.2.2, now⟩ } pes := by
        unfold upsertBatch
        rw [List.foldl_cons, if_neg hz]
      rw [hstep]
      have step := ih { db with
        embeddings := upsertEmbedding db.embeddings
          ⟨pe.1.1, model, pe.2.length, pe.2, pe.1.2.2, now⟩ }
      exact ⟨step.1, step.2.1, step.2.2.1,
        fun hnd => step.2.2.2 (upsertEmbedding_ids_nodup hnd)⟩

lemma embedBatchesGo_frame (embedFn : List Text → Option (List (List ℚ)))
    (model : Text) (now bs : Nat) :
    ∀ (fuel : Nat) (p : List (Nat × Text × Text)) (db : DBState),
      (embedBatchesGo embedFn model now bs fuel p db).chunks = db.chunks
      ∧ (embedBatchesGo embedFn model now bs fuel p db).sources = db.sources
      ∧ (embedBatchesGo embedFn model now bs fuel p db).nextId = db.nextId
      ∧ ((db.embeddings.map (fun e => e.chunk_id)).Nodup →
          ((embedBatchesGo embedFn model now bs fuel p db).embeddings.map
            (fun e => e.chunk_id)).Nodup) := by
  intro fuel
  induction fuel with
  | zero => intro p db; exact ⟨rfl, rfl, rfl, fun hnd => hnd⟩
  | succ f ih =>
    intro p db
    match p with
    | [] => exact ⟨rfl, rfl, rfl, fun hnd => hnd⟩
    | it :: ps =>
      rw [embedBatchesGo]
      cases hemb : embedFn (((it :: ps).take bs).map (fun x => x.2.1)) with
      | none => exact ⟨rfl, rfl, rfl, fun hnd => hnd⟩
      | some vs =>
        have hup := upsertBatch_frame model now (((it :: ps).take bs).zip vs) db
        have hgo := ih ((it :: ps).drop bs)
          (upsertBatch model now db (((it :: ps).take bs).zip vs))
        exact ⟨hgo.1.trans hup.1, hgo.2.1.trans hup.2.1,
          hgo.2.2.1.trans hup.2.2.1,
          fun hnd => hgo.2.2.2 (hup.2.2.2 hnd)⟩

lemma ensure_embeddings_cached_frame (cfg : IndexCfg)
    (embedFn : List Text → Option (List (List ℚ))) (now : Nat) (db : DBState) :
    (ensure_embeddings_cached cfg embedFn now db).chunks = db.chunks
    ∧ (ensure_embeddings_cached cfg embedFn now db).sources = db.sources
    ∧ (ensure_embeddings_cached cfg embedFn now db).nextId = db.nextId
    ∧ ((db.embeddings.map (fun e => e.chunk_id)).Nodup →
        ((ensure_embeddings_cached cfg embedFn now db).embeddings.map
          (fun e => e.chunk_id)).Nodup) := by
  unfold ensure_embeddings_cached
  by_cases h1 : cfg.enable_semantic
  · by_cases h2 : cfg.has_api_key
    · by_cases h3 : pendList db cfg.embedding_model = []
      · simp [h1, h2, h3]
      · simp only [h1, h2, Bool.not_true, Bool.false_eq_true, if_false, h3,
          if_neg h3]
        exact embedBatchesGo_frame embedFn cfg.embedding_model now 64 _ _ db
    · simp [h1, h2]
  · simp [h1]

/-- C10: `rag_embeddings` keeps at most one record per chunk id
(upserting preserves key uniqueness, and so does a whole caching pass),
and the `ON CONFLICT(chunk_id)` upsert replaces the existing record's
model, dimensionality, vector, fingerprint and timestamp wholesale while
leaving every other chunk's record untouched — a newly configured model
replaces, rather than coexists with, the previous model's record. -/
theorem c10_embeddings_primary_key (embs : List EmbRow) (r : EmbRow)
    (hnd : (embs.map (fun e => e.chunk_id)).Nodup) :
    ((upsertEmbedding embs r).map (fun e => e.chunk_id)).Nodup
    ∧ (upsertEmbedding embs r).find? (fun e => e.chunk_id == r.chunk_id)
        = some r
    ∧ (∀ cid, cid ≠ r.chunk_id →
        (upsertEmbedding embs r).find? (fun e => e.chunk_id == cid)
          = embs.find? (fun e => e.chunk_id == cid))
    ∧ (∀ (cfg : IndexCfg) (embedFn : List Text → Option (List (List ℚ)))
        (now : Nat) (db : DBState),
        (db.embeddings.map (fun e => e.chunk_id)).Nodup →
        ((ensure_embeddings_cached cfg embedFn now db).embeddings.map
          (fun e => e.chunk_id)).Nodup) :=
  ⟨upsertEmbedding_ids_nodup hnd,
    upsertEmbedding_find_self embs r,
    fun _ hcid => upsertEmbedding_find_other embs r hcid,
    fun cfg embedFn now db hnd2 =>
      (ensure_embeddings_cached_frame cfg embedFn now db).2.2.2 hnd2⟩

/-- C10 witness: upserting a record for a new model over an existing one
replaces it. -/
theorem c10_embeddings_primary_key_witness :
    ((upsertEmbedding [⟨1, str "m1", 1, [1], str "h", 0⟩]
        ⟨1, str "m2", 2, [1, 1], str "h2", 5⟩).map
      (fun e => e.chunk_id)).Nodup
    ∧ (upsertEmbedding [⟨1, str "m1", 1, [1], str "h", 0⟩]
        ⟨1, str "m2", 2, [1, 1], str "h2", 5⟩).find?
          (fun e => e.chunk_id == (⟨1, str "m2", 2, [1, 1], str "h2", 5⟩ : EmbRow).chunk_id)
        = some ⟨1, str "m2", 2, [1, 1], str "h2", 5⟩ :=
  ⟨(c10_embeddings_primary_key [⟨1, str "m1", 1, [1], str "h", 0⟩]
      ⟨1, str "m2", 2, [1, 1], str "h2", 5⟩ (by decide)).1,
    (c10_embeddings_primary_key [⟨1, str "m1", 1, [1], str "h", 0⟩]
      ⟨1, str "m2", 2, [1, 1], str "h2", 5⟩ (by decide)).2.1⟩

/-! ## Best-effort embedding pass lemmas -/

lemma textsOfBatch_zero (p : List (Nat × Text × Text)) :
    textsOfBatch p 0 = (p.take 64).map (fun x => x.2.1) := by
  unfold textsOfBatch
  simp

lemma textsOfBatch_drop (p : List (Nat × Text × Text)) (i : Nat) :
    textsOfBatch (p.drop 64) i = textsOfBatch p (i + 1) := by
  unfold textsOfBatch
  rw [List.drop_drop]
  have he : 64 + 64 * i = 64 * (i + 1) := by ring
  rw [he]

lemma upsertBatch_find_other (model : Text) (now : Nat) :
    ∀ (pairs : List ((Nat × Text × Text) × List ℚ)) (db : DBState) (cid : Nat),
      cid ∉ pairs.map (fun pe => pe.1.1) →
      (upsertBatch model now db pairs).embeddings.find?
          (fun e => e.chunk_id == cid)
        = db.embeddings.find? (fun e => e.chunk_id == cid) := by
  intro pairs
  induction pairs with
  | nil => intro db cid _; rfl
  | cons pe pes ih =>
    intro db cid hcid
    have hcid1 : cid ≠ pe.1.1 := by
      intro hc
      exact hcid (by simp [hc])
    have hcid2 : cid ∉ pes.map (fun q => q.1.1) := by
      intro hc
      exact hcid (by simp [hc])
    by_cases hz : pe.2.length = 0
    · have hstep : upsertBatch model now db (pe :: pes)
          = upsertBatch model now db pes := by
        unfold upsertBatch
        rw [List.foldl_cons, if_pos hz]
      rw [hstep]
      exact ih db cid hcid2
    · have hstep : upsertBatch model now db (pe :: pes)
          = upsertBatch model now
            { db with
              embeddings := upsertEmbedding db.embeddings
                ⟨pe.1.1, model, pe.2.length, pe.2, pe.1.2.2, now⟩ } pes := by
        unfold upsertBatch
        rw [List.foldl_cons, if_neg hz]
      rw [hstep, ih _ cid hcid2]
      exact upsertEmbedding_find_other db.embeddings _ hcid1

lemma commitBatches_find_other (embedFn : List Text → Option (List (List ℚ)))
    (model : Text) (now : Nat) :
    ∀ (j : Nat) (p : List (Nat × Text × Text)) (db : DBState) (cid : Nat),
      cid ∉ (p.take (64 * j)).map (fun it => it.1) →
      (commitBatches embedFn model now db p j).embeddings.find?
          (fun e => e.chunk_id == cid)
        = db.embeddings.find? (fun e => e.chunk_id == cid) := by
  intro j
  induction j with
  | zero => intro p db cid _; rfl
  | succ j ih =>
    intro p db cid hcid
    rw [commitBatches]
    cases hemb : embedFn ((p.take 64).map (fun it => it.2.1)) with
    | none => rfl
    | some vs =>
      have hsplit : p.take (64 * (j + 1)) = p.take 64 ++ (p.drop 64).take (64 * j) := by
        have he : 64 * (j + 1) = 64 + 64 * j := by ring
        rw [he, List.take_add]
      rw [hsplit] at hcid
      simp only [List.map_append, List.mem_append] at hcid
      push_neg at hcid
      have hzip : cid ∉ ((p.take 64).zip vs).map (fun pe => pe.1.1) := by
        intro hc
        obtain ⟨pe, hpe, hpeq⟩ := List.mem_map.mp hc
        have := (List.of_mem_zip hpe).1
        exact hcid.1 (List.mem_map.mpr ⟨pe.1, this, hpeq⟩)
      rw [ih (p.drop 64) _ cid hcid.2]
      exact upsertBatch_find_other model now _ db cid hzip

lemma embedBatchesGo_eq_commit (embedFn : List Text → Option (List (List ℚ)))
    (model : Text) (now : Nat) :
    ∀ (j : Nat) (p : List (Nat × Text × Text)) (db : DBState) (fuel : Nat),
      p.length ≤ fuel →
      64 * j < p.length →
      (∀ i, i < j → (embedFn (textsOfBatch p i)).isSome = true) →
      embedFn (textsOfBatch p j) = none →
      embedBatchesGo embedFn model now 64 fuel p db
        = commitBatches embedFn model now db p j := by
  intro j
  induction j with
  | zero =>
    intro p db fuel hfuel hlen _ hfail
    match p, fuel with
    | [], _ => simp at hlen
    | it :: ps, 0 => simp at hfuel
    | it :: ps, f + 1 =>
      rw [textsOfBatch_zero] at hfail
      rw [embedBatchesGo, hfail]
      rfl
  | succ j ih =>
    intro p db fuel hfuel hlen hsucc hfail
    match p, fuel with
    | [], _ => simp at hlen
    | it :: ps, 0 => simp at hfuel
    | it :: ps, f + 1 =>
      obtain ⟨vs, hvs⟩ := Option.isSome_iff_exists.mp (hsucc 0 (Nat.succ_pos j))
      rw [textsOfBatch_zero] at hvs
      have hlhs : embedBatchesGo embedFn model now 64 (f + 1) (it :: ps) db
          = embedBatchesGo embedFn model now 64 f ((it :: ps).drop 64)
              (upsertBatch model now db (((it :: ps).take 64).zip vs)) := by
        rw [embedBatchesGo, hvs]
      have hrhs : commitBatches embedFn model now db (it :: ps) (j + 1)
          = commitBatches embedFn model now
              (upsertBatch model now db (((it :: ps).take 64).zip vs))
              ((it :: ps).drop 64) j := by
        rw [commitBatches, hvs]
      rw [hlhs, hrhs]
      apply ih
      · rw [List.length_drop]
        have : (it :: ps).length ≤ f + 1 := hfuel
        have h1 : 1 ≤ (it :: ps).length := by simp
        omega
      · rw [List.length_drop]
        omega
      · intro i hi
        rw [textsOfBatch_drop]
        exact hsucc (i + 1) (Nat.succ_lt_succ hi)
      · rw [textsOfBatch_drop]
        exact hfail

/-- C8: if batch `j` of a caching pass fails after `j` successful batches,
`_ensure_embeddings_cached` returns (it is a total function — the
exception is swallowed) with exactly the successful prefix committed: the
resulting state is the prefix-commit state, chunks and sources are
untouched, and every chunk id outside the committed prefix keeps its
previous embedding record (the remainder stays unembedded). -/
theorem c8_embed_failure_best_effort (cfg : IndexCfg)
    (embedFn : List Text → Option (List (List ℚ))) (now : Nat) (db : DBState)
    (j : Nat)
    (hsem : cfg.enable_semantic = true) (hkey : cfg.has_api_key = true)
    (hsucc : ∀ i, i < j →
      (embedFn (textsOfBatch (pendList db cfg.embedding_model) i)).isSome = true)
    (hfail : embedFn (textsOfBatch (pendList db cfg.embedding_model) j) = none)
    (hj : 64 * j < (pendList db cfg.embedding_model).length) :
    ensure_embeddings_cached cfg embedFn now db
      = commitBatches embedFn cfg.embedding_model now db
          (pendList db cfg.embedding_model) j
    ∧ (ensure_embeddings_cached cfg embedFn now db).chunks = db.chunks
    ∧ (ensure_embeddings_cached cfg embedFn now db).sources = db.sources
    ∧ ∀ cid, cid ∉ ((pendList db cfg.embedding_model).take (64 * j)).map
          (fun x => x.1) →
        (ensure_embeddings_cached cfg embedFn now db).embeddings.find?
            (fun e => e.chunk_id == cid)
          = db.embeddings.find? (fun e => e.chunk_id == cid) := by
  have hpend : pendList db cfg.embedding_model ≠ [] := by
    intro hp
    rw [hp] at hj
    simp at hj
  have heq : ensure_embeddings_cached cfg embedFn now db
      = embedBatchesGo embedFn cfg.embedding_model now 64
          (pendList db cfg.embedding_model).length
          (pendList db cfg.embedding_model) db := by
    unfold ensure_embeddings_cached
    rw [hsem, hkey]
    simp only [Bool.not_true, Bool.false_eq_true, if_false]
    rw [if_neg hpend]
  have hcommit := embedBatchesGo_eq_commit embedFn cfg.embedding_model now j
    (pendList db cfg.embedding_model) db
    (pendList db cfg.embedding_model).length le_rfl hj hsucc hfail
  refine ⟨heq.trans hcommit,
    (ensure_embeddings_cached_frame cfg embedFn now db).1,
    (ensure_embeddings_cached_frame cfg embedFn now db).2.1,
    fun cid hcid => ?_⟩
  rw [heq, hcommit]
  exact commitBatches_find_other embedFn cfg.embedding_model now j
    (pendList db cfg.embedding_model) db cid hcid

/-- C8 witness: 65 pending chunks, a provider that answers full batches of
64 and fails on the final short batch; the pass commits batch 0 only. -/
theorem c8_embed_failure_best_effort_witness :
    ensure_embeddings_cached ⟨true, true, true, str "m"⟩
        (fun ts => if ts.length = 64 then some (ts.map (fun _ => [1])) else none)
        0
        ⟨(List.range 65).map (fun i => ⟨i + 1, str "a.md", str "t", str "c", str "h", 0⟩),
         66, [], []⟩
      = commitBatches
          (fun ts => if ts.length = 64 then some (ts.map (fun _ => [1])) else none)
          (str "m") 0
          ⟨(List.range 65).map (fun i => ⟨i + 1, str "a.md", str "t", str "c", str "h", 0⟩),
           66, [], []⟩
          (pendList
            ⟨(List.range 65).map (fun i => ⟨i + 1, str "a.md", str "t", str "c", str "h", 0⟩),
             66, [], []⟩ (str "m")) 1 :=
  (c8_embed_failure_best_effort ⟨true, true, true, str "m"⟩
    (fun ts => if ts.length = 64 then some (ts.map (fun _ => [1])) else none) 0
    ⟨(List.range 65).map (fun i => ⟨i + 1, str "a.md", str "t", str "c", str "h", 0⟩),
     66, [], []⟩ 1 rfl rfl (by decide) (by decide) (by decide)).1

/-! ## Source-table and incremental-indexing lemmas -/

lemma sources_find_map_other {r : SourceRow} {name : Text}
    (hne : name ≠ r.source_file) :
    ∀ es : List SourceRow,
      (es.map (fun s =>
          if s.source_file == r.source_file then
            { s with file_hash := r.file_hash, indexed_at := r.indexed_at }
          else s)).find? (fun s => s.source_file == name)
        = es.find? (fun s => s.source_file == name) := by
  intro es
  induction es with
  | nil => rfl
  | cons e es ih =>
    by_cases hc : e.source_file = r.source_file
    · have hen : ¬e.source_file = name := by
        rw [hc]
        exact Ne.symm hne
      simp only [List.map_cons]
      rw [if_pos (by simp [hc])]
      rw [List.find?_cons_of_neg _ (by simp [hen]),
        List.find?_cons_of_neg _ (by simp [hen])]
      exact ih
    · simp only [List.map_cons]
      rw [if_neg (by simp [hc])]
      by_cases hp : e.source_file = name
      · rw [List.find?_cons_of_pos _ (by simp [hp]),
          List.find?_cons_of_pos _ (by simp [hp])]
      · rw [List.find?_cons_of_neg _ (by simp [hp]),
          List.find?_cons_of_neg _ (by simp [hp])]
        exact ih

lemma sources_find_append_other {r : SourceRow} {name : Text}
    (hne : name ≠ r.source_file) :
    ∀ es : List SourceRow,
      (es ++ [r]).find? (fun s => s.source_file == name)
        = es.find? (fun s => s.source_file == name) := by
  intro es
  induction es with
  | nil =>
    rw [List.nil_append]
    rw [List.find?_cons_of_neg _ (by simp [Ne.symm hne])]
  | cons e es ih =>
    by_cases hp : e.source_file = name
    · rw [List.cons_append, List.find?_cons_of_pos _ (by simp [hp]),
        List.find?_cons_of_pos _ (by simp [hp])]
    · rw [List.cons_append, List.find?_cons_of_neg _ (by simp [hp]),
        List.find?_cons_of_neg _ (by simp [hp])]
      exact ih

lemma upsertSource_find_other {r : SourceRow} {name : Text}
    (hne : name ≠ r.source_file) (sources : List SourceRow) :
    (upsertSource sources r).find? (fun s => s.source_file == name)
      = sources.find? (fun s => s.source_file == name) := by
  unfold upsertSource
  by_cases hany : sources.any (fun s => s.source_file == r.source_file) = true
  · rw [if_pos hany]
    exact sources_find_map_other hne sources
  · rw [if_neg hany]
    exact sources_find_append_other hne sources

lemma upsertSource_find_self (r : SourceRow) :
    ∀ sources : List SourceRow,
      ∃ s', (upsertSource sources r).find?
          (fun s => s.source_file == r.source_file) = some s'
        ∧ s'.file_hash = r.file_hash ∧ s'.source_file = r.source_file := by
  intro sources
  unfold upsertSource
  by_cases hany : sources.any (fun s => s.source_file == r.source_file) = true
  · rw [if_pos hany]
    induction sources with
    | nil => simp at hany
    | cons e es ih =>
      by_cases hc : e.source_file = r.source_file
      · refine ⟨{ e with file_hash := r.file_hash, indexed_at := r.indexed_at },
          ?_, rfl, hc⟩
        simp only [List.map_cons]
        rw [if_pos (by simp [hc])]
        exact List.find?_cons_of_pos _ (by simp [hc])
      · have hany2 : es.any (fun s => s.source_file == r.source_file) = true := by
          rw [List.any_cons] at hany
          rcases Bool.or_eq_true_iff.mp hany with h | h
          · exact absurd (by simpa using h) hc
          · exact h
        obtain ⟨s', hs1, hs2, hs3⟩ := ih hany2
        refine ⟨s', ?_, hs2, hs3⟩
        simp only [List.map_cons]
        rw [if_neg (by simp [hc])]
        rw [List.find?_cons_of_neg _ (by simp [hc])]
        exact hs1
  · rw [if_neg hany]
    refine ⟨r, ?_, rfl, rfl⟩
    induction sources with
    | nil =>
      rw [List.nil_append]
      exact List.find?_cons_of_pos _ (by simp)
    | cons e es ih =>
      have hne : ¬e.source_file = r.source_file := by
        intro hc
        rw [List.any_cons] at hany
        simp [hc] at hany
      rw [List.cons_append, List.find?_cons_of_neg _ (by simp [hne])]
      apply ih
      rw [List.any_cons] at hany
      intro h2
      exact hany (by simp [h2])

lemma insertChunks_spec (sha : Text → Text) (name : Text) (now : Nat) :
    ∀ (chs : List MDChunk) (db : DBState),
      ∃ extra : List ChunkRow,
        (insertChunks sha name now chs db).chunks = db.chunks ++ extra
        ∧ (insertChunks sha name now chs db).sources = db.sources
        ∧ (insertChunks sha name now chs db).embeddings = db.embeddings
        ∧ (insertChunks sha name now chs db).nextId = db.nextId + chs.length
        ∧ (∀ r ∈ extra, r.source_file = name)
        ∧ (∀ r ∈ extra, db.nextId ≤ r.id ∧ r.id < db.nextId + chs.length)
        ∧ (extra.map (fun c => c.id)).Nodup := by
  intro chs
  induction chs with
  | nil =>
    intro db
    exact ⟨[], by simp [insertChunks], rfl, rfl, rfl, by simp, by simp, by simp⟩
  | cons ch chs ih =>
    intro db
    set row : ChunkRow :=
      ⟨db.nextId, name,
        (if ch.section_title = [] then str "Section" else ch.section_title),
        ch.content, sha ch.content, now⟩ with hrow
    have hstep : insertChunks sha name now (ch :: chs) db
        = insertChunks sha name now chs
          { db with chunks := db.chunks ++ [row], nextId := db.nextId + 1 } := by
      unfold insertChunks
      rw [List.foldl_cons]
    obtain ⟨extra, h1, h2, h3, h4, h5, h6, h7⟩ :=
      ih { db with chunks := db.chunks ++ [row], nextId := db.nextId + 1 }
    refine ⟨row :: extra, ?_, ?_, ?_, ?_, ?_, ?_, ?_⟩
    · rw [hstep, h1]
      simp
    · rw [hstep, h2]
    · rw [hstep, h3]
    · rw [hstep, h4]
      simp only [List.length_cons]
      omega
    · intro r hr
      rcases List.mem_cons.mp hr with h | h
      · rw [h, hrow]
      · exact h5 r h
    · intro r hr
      rcases List.mem_cons.mp hr with h | h
      · rw [h, hrow]
        constructor
        · exact le_refl _
        · simp only [List.length_cons]
          omega
      · obtain ⟨ha, hb⟩ := h6 r h
        have ha2 : db.nextId + 1 ≤ r.id := ha
        have hb2 : r.id < db.nextId + 1 + chs.length := hb
        constructor
        · omega
        · simp only [List.length_cons]
          omega
    · simp only [List.map_cons, List.nodup_cons]
      constructor
      · intro hmem
        obtain ⟨r, hr, hid⟩ := List.mem_map.mp hmem
        have hid2 : r.id = db.nextId := hid
        have ha2 : db.nextId + 1 ≤ r.id := (h6 r hr).1
        omega
      · exact h7

lemma filter_name_of_filter_not {name g : Text} (hne : g ≠ name)
    (l : List ChunkRow) :
    (l.filter (fun c => !(c.source_file == g))).filter
        (fun c => c.source_file == name)
      = l.filter (fun c => c.source_file == name) := by
  induction l with
  | nil => rfl
  | cons c cs ih =>
    by_cases hcg : c.source_file = g
    · have hcn : ¬c.source_file = name := by
        rw [hcg]
        exact hne
      rw [List.filter_cons, List.filter_cons]
      rw [if_neg (by simp [hcg]), if_neg (by simp [hcn])]
      exact ih
    · rw [List.filter_cons, if_pos (by simp [hcg]), List.filter_cons,
        List.filter_cons]
      by_cases hcn : c.source_file = name
      · rw [if_pos (by simp [hcn]), if_pos (by simp [hcn]), ih]
      · rw [if_neg (by simp [hcn]), if_neg (by simp [hcn])]
        exact ih

lemma indexOneFile_skip {sha : Text → Text} {now : Nat} {db : DBState}
    {f : Text × Text} {s : SourceRow}
    (hsrc : lookupSource db f.1 = some s) (hhash : s.file_hash = sha f.2) :
    indexOneFile sha now db f = db := by
  unfold indexOneFile
  rw [hsrc]
  simp [hhash]

lemma indexOneFile_other_frame (sha : Text → Text) (now : Nat) (db : DBState)
    (g : Text × Text) {name : Text} (hne : g.1 ≠ name) :
    (indexOneFile sha now db g).chunks.filter (fun c => c.source_file == name)
      = db.chunks.filter (fun c => c.source_file == name)
    ∧ lookupSource (indexOneFile sha now db g) name = lookupSource db name := by
  unfold indexOneFile
  by_cases hs : (match lookupSource db g.1 with
    | some s => s.file_hash == sha g.2
    | none => false) = true
  · simp [hs]
  · simp only [if_neg hs]
    obtain ⟨extra, h1, h2, h3, _, h5, _, _⟩ :=
      insertChunks_spec sha g.1 now (chunk_markdown_by_h2 g.2 g.1)
        { db with chunks := db.chunks.filter (fun c => !(c.source_file == g.1)) }
    constructor
    · show (insertChunks sha g.1 now _ _).chunks.filter _ = _
      rw [h1]
      rw [List.filter_append]
      have hex : extra.filter (fun c => c.source_file == name) = [] := by
        rw [List.filter_eq_nil_iff]
        intro r hr
        simp [h5 r hr, Ne.symm (by exact fun h => hne h.symm)]
      rw [hex, List.append_nil]
      exact filter_name_of_filter_not hne db.chunks
    · show lookupSource { insertChunks sha g.1 now _ _ with sources := _ } name = _
      unfold lookupSource
      rw [upsertSource_find_other (fun h => hne h.symm) _]
      rw [h2]

lemma index_fold_other_frame (sha : Text → Text) (now : Nat) :
    ∀ (fs : List (Text × Text)) (db : DBState) (name : Text),
      (∀ g ∈ fs, g.1 ≠ name) →
      (fs.foldl (indexOneFile sha now) db).chunks.filter
          (fun c => c.source_file == name)
        = db.chunks.filter (fun c => c.source_file == name)
      ∧ lookupSource (fs.foldl (indexOneFile sha now) db) name
        = lookupSource db name := by
  intro fs
  induction fs with
  | nil => intro db name _; exact ⟨rfl, rfl⟩
  | cons g gs ih =>
    intro db name hall
    rw [List.foldl_cons]
    have h1 := indexOneFile_other_frame sha now db g
      (hall g (List.mem_cons_self g gs))
    have h2 := ih (indexOneFile sha now db g) name
      (fun x hx => hall x (List.mem_cons_of_mem g hx))
    exact ⟨h2.1.trans h1.1, h2.2.trans h1.2⟩

lemma index_fold_untouched (sha : Text → Text) (now : Nat) :
    ∀ (fs : List (Text × Text)) (db : DBState) (f : Text × Text),
      (fs.map Prod.fst).Nodup → f ∈ fs →
      (∃ s, lookupSource db f.1 = some s ∧ s.file_hash = sha f.2) →
      (fs.foldl (indexOneFile sha now) db).chunks.filter
          (fun c => c.source_file == f.1)
        = db.chunks.filter (fun c => c.source_file == f.1) := by
  intro fs
  induction fs with
  | nil => intro db f _ hf _; simp at hf
  | cons g gs ih =>
    intro db f hnd hf hsrc
    rw [List.foldl_cons]
    rw [List.map_cons, List.nodup_cons] at hnd
    rcases List.mem_cons.mp hf with hfg | hf2
    · obtain ⟨s, hs1, hs2⟩ := hsrc
      subst hfg
      rw [indexOneFile_skip hs1 hs2]
      have hnames : ∀ x ∈ gs, x.1 ≠ f.1 := by
        intro x hx hc
        exact hnd.1 (hc ▸ List.mem_map.mpr ⟨x, hx, rfl⟩)
      exact (index_fold_other_frame sha now gs db f.1 hnames).1
    · have hgne : g.1 ≠ f.1 := by
        intro hc
        exact hnd.1 (hc ▸ List.mem_map.mpr ⟨f, hf2, rfl⟩)
      have hframe := indexOneFile_other_frame sha now db g hgne
      have hsrc2 : ∃ s, lookupSource (indexOneFile sha now db g) f.1 = some s
          ∧ s.file_hash = sha f.2 := by
        obtain ⟨s, hs1, hs2⟩ := hsrc
        exact ⟨s, by rw [hframe.2]; exact hs1, hs2⟩
      rw [ih (indexOneFile sha now db g) f hnd.2 hf2 hsrc2, hframe.1]

lemma index_fold_sources_updated (sha : Text → Text) (now : Nat) :
    ∀ (fs : List (Text × Text)) (db : DBState),
      (fs.map Prod.fst).Nodup →
      ∀ f ∈ fs,
        ∃ s, lookupSource (fs.foldl (indexOneFile sha now) db) f.1 = some s
          ∧ s.file_hash = sha f.2 := by
  intro fs
  induction fs with
  | nil => intro db _ f hf; simp at hf
  | cons g gs ih =>
    intro db hnd f hf
    rw [List.foldl_cons]
    rw [List.map_cons, List.nodup_cons] at hnd
    rcases List.mem_cons.mp hf with hfg | hf2
    · subst hfg
      have hone : ∃ s, lookupSource (indexOneFile sha now db f) f.1 = some s
          ∧ s.file_hash = sha f.2 := by
        unfold indexOneFile
        by_cases hs : (match lookupSource db f.1 with
          | some s => s.file_hash == sha f.2
          | none => false) = true
        · simp only [hs, if_true]
          cases hsrc : lookupSource db f.1 with
          | none => rw [hsrc] at hs; simp at hs
          | some s =>
            rw [hsrc] at hs
            exact ⟨s, rfl, by simpa using hs⟩
        · simp only [if_neg hs]
          show ∃ s, lookupSource { insertChunks sha f.1 now _ _ with sources := _ } f.1
              = some s ∧ _
          unfold lookupSource
          obtain ⟨s2, hfind, hfh, _⟩ := upsertSource_find_self
            ⟨f.1, sha f.2, now⟩
            (insertChunks sha f.1 now (chunk_markdown_by_h2 f.2 f.1)
              { db with
                chunks := db.chunks.filter (fun c => !(c.source_file == f.1)) }).sources
          exact ⟨s2, hfind, hfh⟩
      obtain ⟨s, hs1, hs2⟩ := hone
      refine ⟨s, ?_, hs2⟩
      have hnames : ∀ x ∈ gs, x.1 ≠ f.1 := by
        intro x hx hc
        exact hnd.1 (hc ▸ List.mem_map.mpr ⟨x, hx, rfl⟩)
      rw [(index_fold_other_frame sha now gs (indexOneFile sha now db f) f.1
        hnames).2]
      exact hs1
    · exact ih (indexOneFile sha now db g) hnd.2 f hf2

lemma ensure_index_chunks_sources (cfg : IndexCfg) (sha : Text → Text)
    (embedFn : List Text → Option (List (List ℚ))) (now : Nat)
    (fs : List (Text × Text)) (db : DBState) :
    (ensure_index cfg sha embedFn now fs db).chunks
      = (if cfg.docs_dir_exists then
          (index_docs_incremental sha now fs db).chunks else db.chunks)
    ∧ (ensure_index cfg sha embedFn now fs db).sources
      = (if cfg.docs_dir_exists then
          (index_docs_incremental sha now fs db).sources else db.sources) := by
  unfold ensure_index
  by_cases hd : cfg.docs_dir_exists
  · simp only [hd, Bool.not_true, Bool.false_eq_true, if_false, if_true]
    by_cases hsem : cfg.enable_semantic
    · rw [if_pos hsem]
      exact ⟨(ensure_embeddings_cached_frame cfg embedFn now _).1,
        (ensure_embeddings_cached_frame cfg embedFn now _).2.1⟩
    · rw [if_neg hsem]
      exact ⟨rfl, rfl⟩
  · simp only [hd]
    simp

lemma ensure_index_untouched (cfg : IndexCfg) (sha : Text → Text)
    (embedFn : List Text → Option (List (List ℚ))) (now : Nat)
    (fs : List (Text × Text)) (db : DBState) (f : Text × Text)
    (hnd : (fs.map Prod.fst).Nodup) (hf : f ∈ fs)
    (hsrc : ∃ s, lookupSource db f.1 = some s ∧ s.file_hash = sha f.2) :
    (ensure_index cfg sha embedFn now fs db).chunks.filter
        (fun c => c.source_file == f.1)
      = db.chunks.filter (fun c => c.source_file == f.1) := by
  rw [(ensure_index_chunks_sources cfg sha embedFn now fs db).1]
  by_cases hd : cfg.docs_dir_exists
  · rw [if_pos hd]
    unfold index_docs_incremental
    have hfs : fs ≠ [] := by
      intro hc
      rw [hc] at hf
      simp at hf
    rw [if_neg hfs]
    exact index_fold_untouched sha now fs db f hnd hf hsrc
  · rw [if_neg hd]

/-- C3: (a) during `ensure_index`, a document whose newly computed
fingerprint equals the stored source-record fingerprint keeps its chunk
rows exactly (same rows, hence same identifiers and fingerprints — no
delete or insert happens for it); (b) consequently, re-running
`ensure_index` after modifying one document's text leaves every other
document's chunk rows identical. -/
theorem c3_change_detection_frame :
    (∀ (cfg : IndexCfg) (sha : Text → Text)
        (embedFn : List Text → Option (List (List ℚ))) (now : Nat)
        (fs : List (Text × Text)) (db : DBState) (f : Text × Text),
      (fs.map Prod.fst).Nodup → f ∈ fs →
      (∃ s, lookupSource db f.1 = some s ∧ s.file_hash = sha f.2) →
      (ensure_index cfg sha embedFn now fs db).chunks.filter
          (fun c => c.source_file == f.1)
        = db.chunks.filter (fun c => c.source_file == f.1))
    ∧ (∀ (cfg : IndexCfg) (sha : Text → Text)
        (embedFn : List Text → Option (List (List ℚ))) (now1 now2 : Nat)
        (fs fs2 : List (Text × Text)) (db0 : DBState) (dname : Text),
      (fs.map Prod.fst).Nodup → (fs2.map Prod.fst).Nodup →
      (∀ g ∈ fs2, g.1 ≠ dname → g ∈ fs) →
      ∀ f ∈ fs2, f.1 ≠ dname →
        (ensure_index cfg sha embedFn now2 fs2
            (ensure_index cfg sha embedFn now1 fs db0)).chunks.filter
            (fun c => c.source_file == f.1)
          = (ensure_index cfg sha embedFn now1 fs db0).chunks.filter
            (fun c => c.source_file == f.1)) := by
  constructor
  · intro cfg sha embedFn now fs db f hnd hf hsrc
    exact ensure_index_untouched cfg sha embedFn now fs db f hnd hf hsrc
  · intro cfg sha embedFn now1 now2 fs fs2 db0 dname hnd1 hnd2 hsub f hf hne
    by_cases hd : cfg.docs_dir_exists
    · have hffs : f ∈ fs := hsub f hf hne
      have hfs : fs ≠ [] := by
        intro hc
        rw [hc] at hffs
        simp at hffs
      have hso : (ensure_index cfg sha embedFn now1 fs db0).sources
          = (index_docs_incremental sha now1 fs db0).sources := by
        rw [(ensure_index_chunks_sources cfg sha embedFn now1 fs db0).2,
          if_pos hd]
      obtain ⟨s, hs1, hs2⟩ :=
        index_fold_sources_updated sha now1 fs db0 hnd1 f hffs
      have hsrc : ∃ s, lookupSource (ensure_index cfg sha embedFn now1 fs db0) f.1
          = some s ∧ s.file_hash = sha f.2 := by
        refine ⟨s, ?_, hs2⟩
        unfold lookupSource at hs1 ⊢
        rw [hso]
        show (index_docs_incremental sha now1 fs db0).sources.find? _ = some s
        unfold index_docs_incremental
        rw [if_neg hfs]
        exact hs1
      exact ensure_index_untouched cfg sha embedFn now2 fs2 _ f hnd2 hf hsrc
    · rw [(ensure_index_chunks_sources cfg sha embedFn now2 fs2 _).1,
        if_neg hd]

/-- C3 witness: a one-file corpus whose stored fingerprint matches keeps
its chunk rows through `ensure_index`. -/
theorem c3_change_detection_frame_witness :
    (ensure_index ⟨true, false, false, str "m"⟩ (fun t => t)
        (fun _ => none) 7 [(str "a.md", str "x")]
        ⟨[⟨1, str "a.md", str "T", str "B", str "x", 0⟩], 2,
         [⟨str "a.md", str "x", 0⟩], []⟩).chunks.filter
        (fun c => c.source_file == (str "a.md", str "x").1)
      = (⟨[⟨1, str "a.md", str "T", str "B", str "x", 0⟩], 2,
          [⟨str "a.md", str "x", 0⟩], []⟩ : DBState).chunks.filter
        (fun c => c.source_file == (str "a.md", str "x").1) :=
  c3_change_detection_frame.1 ⟨true, false, false, str "m"⟩ (fun t => t)
    (fun _ => none) 7 [(str "a.md", str "x")]
    ⟨[⟨1, str "a.md", str "T", str "B", str "x", 0⟩], 2,
     [⟨str "a.md", str "x", 0⟩], []⟩ (str "a.md", str "x")
    (by decide) (by decide) ⟨⟨str "a.md", str "x", 0⟩, by decide, rfl⟩

/-! ## Idempotence of the second `ensure_index` pass -/

lemma zip_total {α β : Type} :
    ∀ (batch : List α) (vs : List β), vs.length = batch.length →
      ∀ item ∈ batch, ∃ v ∈ vs, (item, v) ∈ batch.zip vs := by
  intro batch
  induction batch with
  | nil => intro vs _ item hmem; simp at hmem
  | cons b bs ih =>
    intro vs hlen item hmem
    match vs with
    | [] => simp at hlen
    | v :: vt =>
      rcases List.mem_cons.mp hmem with h | h
      · exact ⟨v, List.mem_cons_self v vt, by rw [h]; simp [List.zip_cons_cons]⟩
      · obtain ⟨v2, hv2, hz⟩ := ih vt (by simpa using hlen) item h
        exact ⟨v2, List.mem_cons_of_mem v hv2,
          by rw [List.zip_cons_cons]; exact List.mem_cons_of_mem _ hz⟩

lemma pendList_ids (db : DBState) (model : Text) :
    (pendList db model).map (fun it => it.1)
      = (db.chunks.filter (needsEmbedding db model)).map (fun c => c.id) := by
  unfold pendList
  rw [List.map_map]
  rfl

lemma pendList_ids_nodup {db : DBState} (model : Text)
    (hnd : (db.chunks.map (fun c => c.id)).Nodup) :
    ((pendList db model).map (fun it => it.1)).Nodup := by
  rw [pendList_ids]
  exact List.Nodup.sublist (List.Sublist.map _ (List.filter_sublist _)) hnd

lemma filter_not_mem_take {α : Type} (g : α → Nat) :
    ∀ (l : List α) (n : Nat), (l.map g).Nodup →
      l.filter (fun x => !(((l.take n).map g).contains (g x))) = l.drop n := by
  intro l
  induction l with
  | nil => intro n _; simp
  | cons a t ih =>
    intro n hnd
    rw [List.map_cons, List.nodup_cons] at hnd
    match n with
    | 0 =>
      rw [List.take_zero]
      have hall : ∀ x ∈ (a :: t),
          (!((([] : List α).map g).contains (g x))) = true := by
        intro x _
        simp
      rw [List.filter_eq_self.mpr hall]
      rfl
    | n + 1 =>
      have htake : (a :: t).take (n + 1) = a :: t.take n := rfl
      rw [List.filter_cons]
      rw [if_neg (by simp [htake])]
      have hcong : t.filter
            (fun x => !((((a :: t).take (n + 1)).map g).contains (g x)))
          = t.filter (fun x => !(((t.take n).map g).contains (g x))) := by
        apply List.filter_congr
        intro x hx
        have hgx : g x ≠ g a := by
          intro hc
          exact hnd.1 (hc ▸ List.mem_map.mpr ⟨x, hx, rfl⟩)
        simp [htake, List.contains_cons, hgx]
      rw [hcong, ih n hnd.2]
      rfl

lemma upsertBatch_find_mem (model : Text) (now : Nat) :
    ∀ (pairs : List ((Nat × Text × Text) × List ℚ)) (db : DBState)
      (item : Nat × Text × Text) (v : List ℚ),
      (item, v) ∈ pairs → v ≠ [] →
      (pairs.map (fun pe => pe.1.1)).Nodup →
      (upsertBatch model now db pairs).embeddings.find?
          (fun e => e.chunk_id == item.1)
        = some ⟨item.1, model, v.length, v, item.2.2, now⟩ := by
  intro pairs
  induction pairs with
  | nil => intro db item v hmem _ _; simp at hmem
  | cons pe pes ih =>
    intro db item v hmem hv hnd
    rw [List.map_cons, List.nodup_cons] at hnd
    rcases List.mem_cons.mp hmem with h | h
    · have hpe : pe = (item, v) := h.symm
      subst hpe
      have hz : ¬v.length = 0 := by
        intro hc
        exact hv (List.length_eq_zero.mp hc)
      have hstep : upsertBatch model now db ((item, v) :: pes)
          = upsertBatch model now
            { db with
              embeddings := upsertEmbedding db.embeddings
                ⟨item.1, model, v.length, v, item.2.2, now⟩ } pes := by
        unfold upsertBatch
        rw [List.foldl_cons, if_neg hz]
      rw [hstep]
      have hnotin : item.1 ∉ pes.map (fun pe => pe.1.1) := hnd.1
      rw [upsertBatch_find_other model now pes _ item.1 hnotin]
      exact upsertEmbedding_find_self db.embeddings
        ⟨item.1, model, v.length, v, item.2.2, now⟩
    · have hne : item.1 ≠ pe.1.1 := by
        intro hc
        exact hnd.1 (hc ▸ List.mem_map.mpr ⟨(item, v), h, rfl⟩)
      by_cases hz : pe.2.length = 0
      · have hstep : upsertBatch model now db (pe :: pes)
            = upsertBatch model now db pes := by
          unfold upsertBatch
          rw [List.foldl_cons, if_pos hz]
        rw [hstep]
        exact ih db item v h hv hnd.2
      · have hstep : upsertBatch model now db (pe :: pes)
            = upsertBatch model now
              { db with
                embeddings := upsertEmbedding db.embeddings
                  ⟨pe.1.1, model, pe.2.length, pe.2, pe.1.2.2, now⟩ } pes := by
          unfold upsertBatch
          rw [List.foldl_cons, if_neg hz]
        rw [hstep]
        exact ih _ item v h hv hnd.2

lemma pendList_proj (db : DBState) (model : Text) :
    pendList db model
      = (db.chunks.filter (needsEmbedding db model)).map
          (fun c => (c.id, c.content, c.content_hash)) := rfl

lemma pendList_after_upsertBatch (model : Text) (now : Nat) (db : DBState)
    (p : List (Nat × Text × Text)) (vs : List (List ℚ))
    (hp : pendList db model = p)
    (hnd : (db.chunks.map (fun c => c.id)).Nodup)
    (hvlen : vs.length = (p.take 64).length)
    (hvpos : ∀ v ∈ vs, v ≠ []) :
    pendList (upsertBatch model now db ((p.take 64).zip vs)) model
      = p.drop 64 := by
  set fl := db.chunks.filter (needsEmbedding db model) with hfl
  have hpfl : p = fl.map (fun c => (c.id, c.content, c.content_hash)) := by
    rw [← hp, pendList_proj]
  have hflnd : (fl.map (fun c => c.id)).Nodup :=
    List.Nodup.sublist (List.Sublist.map _ (List.filter_sublist _)) hnd
  have hbatch_ids : (p.take 64).map (fun it => it.1)
      = (fl.take 64).map (fun c => c.id) := by
    rw [hpfl, ← List.map_take, List.map_map]
    rfl
  have hpairs_ids : ((p.take 64).zip vs).map (fun pe => pe.1.1)
      = (fl.take 64).map (fun c => c.id) := by
    have h1 : ((p.take 64).zip vs).map Prod.fst = p.take 64 :=
      List.map_fst_zip _ _ (le_of_eq hvlen.symm)
    have h2 : ((p.take 64).zip vs).map (fun pe => pe.1.1)
        = ((p.take 64).zip vs).map
            ((fun it : Nat × Text × Text => it.1) ∘ Prod.fst) := rfl
    rw [← hbatch_ids, h2, ← List.map_map, h1]
  have hpairs_nd : (((p.take 64).zip vs).map (fun pe => pe.1.1)).Nodup := by
    rw [hpairs_ids]
    exact List.Nodup.sublist (List.Sublist.map _ (List.take_sublist 64 fl)) hflnd
  set db2 := upsertBatch model now db ((p.take 64).zip vs) with hdb2
  have hchunks : db2.chunks = db.chunks :=
    (upsertBatch_frame model now ((p.take 64).zip vs) db).1
  -- pointwise behaviour of the new selection predicate
  have hkey : ∀ c ∈ db.chunks,
      needsEmbedding db2 model c
        = (needsEmbedding db model c
            && !(((fl.take 64).map (fun c => c.id)).contains c.id)) := by
    intro c hc
    by_cases hin : c.id ∈ (fl.take 64).map (fun x => x.id)
    · -- c is in the upserted batch: fresh valid record, so not selected
      obtain ⟨c2, hc2, hc2id⟩ := List.mem_map.mp hin
      have hc2fl : c2 ∈ fl := List.take_subset 64 fl hc2
      have hc2chunks : c2 ∈ db.chunks := List.mem_of_mem_filter hc2fl
      have hcc : c2 = c :=
        List.inj_on_of_nodup_map hnd hc2chunks hc hc2id
      subst hcc
      have hitem : (c2.id, c2.content, c2.content_hash) ∈ p.take 64 := by
        rw [hpfl, ← List.map_take]
        exact List.mem_map.mpr ⟨c2, hc2, rfl⟩
      obtain ⟨v, hv, hzmem⟩ := zip_total (p.take 64) vs hvlen _ hitem
      have hfind := upsertBatch_find_mem model now ((p.take 64).zip vs) db
        (c2.id, c2.content, c2.content_hash) v hzmem (hvpos v hv) hpairs_nd
      have hsel : needsEmbedding db2 model c2 = false := by
        unfold needsEmbedding
        rw [hfind]
        simp
      rw [hsel]
      have hcontains : ((fl.take 64).map (fun x => x.id)).contains c2.id = true :=
        List.elem_eq_true_of_mem hin
      rw [hcontains]
      simp
    · -- c is outside the batch: its record is untouched
      have hnotin : c.id ∉ ((p.take 64).zip vs).map (fun pe => pe.1.1) := by
        rw [hpairs_ids]
        exact hin
      have hfind := upsertBatch_find_other model now ((p.take 64).zip vs) db
        c.id hnotin
      have hsel : needsEmbedding db2 model c = needsEmbedding db model c := by
        unfold needsEmbedding
        rw [hfind]
      rw [hsel]
      have hcontains : ((fl.take 64).map (fun x => x.id)).contains c.id = false := by
        rw [← Bool.not_eq_true]
        intro hc2
        exact hin (List.elem_iff.mp hc2)
      rw [hcontains]
      simp
  -- rewrite the new pending list through the pointwise identity
  rw [pendList_proj, hchunks]
  have hfilter : db.chunks.filter (needsEmbedding db2 model)
      = db.chunks.filter (fun c => needsEmbedding db model c
          && !(((fl.take 64).map (fun c => c.id)).contains c.id)) :=
    List.filter_congr hkey
  rw [hfilter]
  have hff : db.chunks.filter (fun c => needsEmbedding db model c
        && !(((fl.take 64).map (fun c => c.id)).contains c.id))
      = fl.filter (fun c => !(((fl.take 64).map (fun c => c.id)).contains c.id)) := by
    rw [hfl]
    rw [List.filter_filter]
    apply List.filter_congr
    intro x _
    exact Bool.and_comm _ _
  rw [hff]
  have hdrop : fl.filter
        (fun c => !(((fl.take 64).map (fun c => c.id)).contains c.id))
      = fl.drop 64 := by
    have := filter_not_mem_take (fun c : ChunkRow => c.id) fl 64 hflnd
    simpa using this
  rw [hdrop, hpfl, List.map_drop]

lemma ensure_embeddings_cached_of_pend_nil (cfg : IndexCfg)
    (embedFn : List Text → Option (List (List ℚ))) (now : Nat) (db : DBState)
    (hp : pendList db cfg.embedding_model = []) :
    ensure_embeddings_cached cfg embedFn now db = db := by
  unfold ensure_embeddings_cached
  by_cases h1 : cfg.enable_semantic
  · by_cases h2 : cfg.has_api_key
    · simp [h1, h2, hp]
    · simp [h1, h2]
  · simp [h1]

lemma embed_pass_idem (cfg : IndexCfg)
    (embedFn : List Text → Option (List (List ℚ))) (now1 now2 : Nat)
    (hsem : cfg.enable_semantic = true) (hkey : cfg.has_api_key = true)
    (hlen : ∀ ts vs, embedFn ts = some vs → vs.length = ts.length)
    (hpos : ∀ ts vs, embedFn ts = some vs → ∀ v ∈ vs, v ≠ []) :
    ∀ (fuel : Nat) (p : List (Nat × Text × Text)) (db : DBState),
      p.length ≤ fuel → pendList db cfg.embedding_model = p →
      (db.chunks.map (fun c => c.id)).Nodup →
      ensure_embeddings_cached cfg embedFn now2
          (embedBatchesGo embedFn cfg.embedding_model now1 64 fuel p db)
        = embedBatchesGo embedFn cfg.embedding_model now1 64 fuel p db := by
  intro fuel
  induction fuel with
  | zero =>
    intro p db hf hp _
    have hp0 : p = [] := List.eq_nil_of_length_eq_zero (Nat.le_zero.mp hf)
    subst hp0
    exact ensure_embeddings_cached_of_pend_nil cfg embedFn now2 db hp
  | succ f ih =>
    intro p db hf hp hnd
    match p, hp with
    | [], hp =>
      exact ensure_embeddings_cached_of_pend_nil cfg embedFn now2 db hp
    | it :: ps, hp =>
      cases hemb : embedFn (((it :: ps).take 64).map (fun x => x.2.1)) with
      | none =>
        have hgo : embedBatchesGo embedFn cfg.embedding_model now1 64 (f + 1)
            (it :: ps) db = db := by
          rw [embedBatchesGo, hemb]
        rw [hgo]
        unfold ensure_embeddings_cached
        rw [hsem, hkey]
        simp only [Bool.not_true, Bool.false_eq_true, if_false]
        rw [if_neg (by rw [hp]; simp)]
        rw [hp]
        have hlc : (it :: ps).length = ps.length + 1 := rfl
        rw [hlc, embedBatchesGo, hemb]
      | some vs =>
        have hvlen : vs.length = ((it :: ps).take 64).length := by
          have := hlen _ _ hemb
          rwa [List.length_map] at this
        have hvpos : ∀ v ∈ vs, v ≠ [] := hpos _ _ hemb
        have hgo : embedBatchesGo embedFn cfg.embedding_model now1 64 (f + 1)
            (it :: ps) db
            = embedBatchesGo embedFn cfg.embedding_model now1 64 f
              ((it :: ps).drop 64)
              (upsertBatch cfg.embedding_model now1 db
                (((it :: ps).take 64).zip vs)) := by
          rw [embedBatchesGo, hemb]
        rw [hgo]
        apply ih
        · rw [List.length_drop]
          have h1 : (it :: ps).length ≤ f + 1 := hf
          have h2 : 1 ≤ (it :: ps).length := by simp
          omega
        · exact pendList_after_upsertBatch cfg.embedding_model now1 db
            (it :: ps) vs hp hnd hvlen hvpos
        · rw [(upsertBatch_frame cfg.embedding_model now1 _ db).1]
          exact hnd

lemma index_fold_skip_all (sha : Text → Text) (now : Nat) :
    ∀ (fs : List (Text × Text)) (db : DBState),
      (∀ f ∈ fs, ∃ s, lookupSource db f.1 = some s ∧ s.file_hash = sha f.2) →
      fs.foldl (indexOneFile sha now) db = db := by
  intro fs
  induction fs with
  | nil => intro db _; rfl
  | cons g gs ih =>
    intro db hall
    rw [List.foldl_cons]
    obtain ⟨s, hs1, hs2⟩ := hall g (List.mem_cons_self g gs)
    rw [indexOneFile_skip hs1 hs2]
    exact ih db (fun f hf => hall f (List.mem_cons_of_mem g hf))

lemma indexOneFile_chunksInv (sha : Text → Text) (now : Nat) (db : DBState)
    (f : Text × Text) (hinv : ChunksInv db) :
    ChunksInv (indexOneFile sha now db f) := by
  unfold indexOneFile
  by_cases hs : (match lookupSource db f.1 with
    | some s => s.file_hash == sha f.2
    | none => false) = true
  · simpa [hs] using hinv
  · simp only [if_neg hs]
    obtain ⟨extra, h1, _, _, h4, _, h6, h7⟩ :=
      insertChunks_spec sha f.1 now (chunk_markdown_by_h2 f.2 f.1)
        { db with chunks := db.chunks.filter (fun c => !(c.source_file == f.1)) }
    have hdel_nd : ((db.chunks.filter
        (fun c => !(c.source_file == f.1))).map (fun c => c.id)).Nodup :=
      List.Nodup.sublist (List.Sublist.map _ (List.filter_sublist _)) hinv.1
    constructor
    · show ((insertChunks sha f.1 now _ _).chunks.map (fun c => c.id)).Nodup
      rw [h1, List.map_append]
      rw [List.nodup_append]
      refine ⟨hdel_nd, h7, ?_⟩
      intro x hx hy
      obtain ⟨cx, hcx, hcxid⟩ := List.mem_map.mp hx
      obtain ⟨cy, hcy, hcyid⟩ := List.mem_map.mp hy
      have hxlt : x < db.nextId := by
        rw [← hcxid]
        exact hinv.2 cx (List.mem_of_mem_filter hcx)
      have hyge : db.nextId ≤ x := by
        rw [← hcyid]
        exact (h6 cy hcy).1
      omega
    · show ∀ c ∈ (insertChunks sha f.1 now _ _).chunks,
        c.id < (insertChunks sha f.1 now _ _).nextId
      rw [h1, h4]
      intro c hc
      rcases List.mem_append.mp hc with h | h
      · have h5 : c.id < db.nextId := hinv.2 c (List.mem_of_mem_filter h)
        show c.id < db.nextId + (chunk_markdown_by_h2 f.2 f.1).length
        omega
      · exact (h6 c h).2

lemma index_fold_chunksInv (sha : Text → Text) (now : Nat) :
    ∀ (fs : List (Text × Text)) (db : DBState),
      ChunksInv db → ChunksInv (fs.foldl (indexOneFile sha now) db) := by
  intro fs
  induction fs with
  | nil => intro db hinv; exact hinv
  | cons g gs ih =>
    intro db hinv
    rw [List.foldl_cons]
    exact ih _ (indexOneFile_chunksInv sha now db g hinv)

lemma ensure_index_of_docs (cfg : IndexCfg) (sha : Text → Text)
    (embedFn : List Text → Option (List (List ℚ))) (now : Nat)
    (fs : List (Text × Text)) (db : DBState)
    (hd : cfg.docs_dir_exists = true) :
    ensure_index cfg sha embedFn now fs db
      = (if cfg.enable_semantic then
          ensure_embeddings_cached cfg embedFn now
            (index_docs_incremental sha now fs db)
        else index_docs_incremental sha now fs db) := by
  unfold ensure_index
  simp [hd]

lemma ensure_index_of_not_docs (cfg : IndexCfg) (sha : Text → Text)
    (embedFn : List Text → Option (List (List ℚ))) (now : Nat)
    (fs : List (Text × Text)) (db : DBState)
    (hd : cfg.docs_dir_exists = false) :
    ensure_index cfg sha embedFn now fs db = db := by
  unfold ensure_index
  simp [hd]

lemma second_index_pass_id (cfg : IndexCfg) (sha : Text → Text)
    (embedFn : List Text → Option (List (List ℚ))) (now1 now2 : Nat)
    (fs : List (Text × Text)) (db0 : DBState)
    (hnames : (fs.map Prod.fst).Nodup) (hd : cfg.docs_dir_exists = true) :
    index_docs_incremental sha now2 fs
        (ensure_index cfg sha embedFn now1 fs db0)
      = ensure_index cfg sha embedFn now1 fs db0 := by
  by_cases hfs : fs = []
  · unfold index_docs_incremental
    rw [if_pos hfs]
  · set db1 := ensure_index cfg sha embedFn now1 fs db0 with hdb1
    have hso : db1.sources = (index_docs_incremental sha now1 fs db0).sources := by
      rw [hdb1, (ensure_index_chunks_sources cfg sha embedFn now1 fs db0).2,
        if_pos hd]
    have hsrcs : ∀ f ∈ fs, ∃ s, lookupSource db1 f.1 = some s
        ∧ s.file_hash = sha f.2 := by
      intro f hf
      obtain ⟨s, hs1, hs2⟩ :=
        index_fold_sources_updated sha now1 fs db0 hnames f hf
      refine ⟨s, ?_, hs2⟩
      unfold lookupSource at hs1 ⊢
      rw [hso]
      show (index_docs_incremental sha now1 fs db0).sources.find? _ = some s
      unfold index_docs_incremental
      rw [if_neg hfs]
      exact hs1
    unfold index_docs_incremental
    rw [if_neg hfs]
    exact index_fold_skip_all sha now2 fs db1 hsrcs

/-- C2: running `ensure_index` twice with the same corpus and the same
deterministic embedding provider (one vector per input, never empty)
leaves the chunk, source and embedding row counts of the second run equal
to those of the first — in fact the second run does not change the state
at all. -/
theorem c2_ensure_index_idempotent (cfg : IndexCfg) (sha : Text → Text)
    (embedFn : List Text → Option (List (List ℚ))) (now1 now2 : Nat)
    (fs : List (Text × Text)) (db0 : DBState)
    (hinv : ChunksInv db0)
    (hnames : (fs.map Prod.fst).Nodup)
    (hlen : ∀ ts vs, embedFn ts = some vs → vs.length = ts.length)
    (hpos : ∀ ts vs, embedFn ts = some vs → ∀ v ∈ vs, v ≠ []) :
    (ensure_index cfg sha embedFn now2 fs
        (ensure_index cfg sha embedFn now1 fs db0)).chunks.length
      = (ensure_index cfg sha embedFn now1 fs db0).chunks.length
    ∧ (ensure_index cfg sha embedFn now2 fs
        (ensure_index cfg sha embedFn now1 fs db0)).sources.length
      = (ensure_index cfg sha embedFn now1 fs db0).sources.length
    ∧ (ensure_index cfg sha embedFn now2 fs
        (ensure_index cfg sha embedFn now1 fs db0)).embeddings.length
      = (ensure_index cfg sha embedFn now1 fs db0).embeddings.length := by
  have hstate : ensure_index cfg sha embedFn now2 fs
      (ensure_index cfg sha embedFn now1 fs db0)
      = ensure_index cfg sha embedFn now1 fs db0 := by
    by_cases hd : cfg.docs_dir_exists = true
    · rw [ensure_index_of_docs cfg sha embedFn now2 fs _ hd]
      rw [second_index_pass_id cfg sha embedFn now1 now2 fs db0 hnames hd]
      by_cases hsem : cfg.enable_semantic = true
      · rw [if_pos hsem]
        rw [ensure_index_of_docs cfg sha embedFn now1 fs db0 hd, if_pos hsem]
        by_cases hkey : cfg.has_api_key = true
        · have hIinv : ChunksInv (index_docs_incremental sha now1 fs db0) := by
            unfold index_docs_incremental
            by_cases hfs : fs = []
            · rw [if_pos hfs]
              exact hinv
            · rw [if_neg hfs]
              exact index_fold_chunksInv sha now1 fs db0 hinv
          by_cases hpend : pendList (index_docs_incremental sha now1 fs db0)
              cfg.embedding_model = []
          · rw [ensure_embeddings_cached_of_pend_nil cfg embedFn now1 _ hpend]
            exact ensure_embeddings_cached_of_pend_nil cfg embedFn now2 _ hpend
          · have hfirst : ensure_embeddings_cached cfg embedFn now1
                (index_docs_incremental sha now1 fs db0)
                = embedBatchesGo embedFn cfg.embedding_model now1 64
                  (pendList (index_docs_incremental sha now1 fs db0)
                    cfg.embedding_model).length
                  (pendList (index_docs_incremental sha now1 fs db0)
                    cfg.embedding_model)
                  (index_docs_incremental sha now1 fs db0) := by
              unfold ensure_embeddings_cached
              rw [hsem, hkey]
              simp only [Bool.not_true, Bool.false_eq_true, if_false]
              rw [if_neg hpend]
            rw [hfirst]
            exact embed_pass_idem cfg embedFn now1 now2 hsem hkey hlen hpos
              (pendList (index_docs_incremental sha now1 fs db0)
                cfg.embedding_model).length
              (pendList (index_docs_incremental sha now1 fs db0)
                cfg.embedding_model)
              (index_docs_incremental sha now1 fs db0) le_rfl rfl hIinv.1
        · have hkey2 : cfg.has_api_key = false := Bool.not_eq_true _ ▸
            Bool.of_not_eq_true hkey
          have hid : ∀ (n : Nat) (d : DBState),
              ensure_embeddings_cached cfg embedFn n d = d := by
            intro n d
            unfold ensure_embeddings_cached
            simp [hkey2]
          rw [hid now1 (index_docs_incremental sha now1 fs db0)]
          exact hid now2 (index_docs_incremental sha now1 fs db0)
      · rw [if_neg hsem]
    · have hd2 : cfg.docs_dir_exists = false := Bool.not_eq_true _ ▸
        Bool.of_not_eq_true hd
      rw [ensure_index_of_not_docs cfg sha embedFn now2 fs _ hd2]
  rw [hstate]
  exact ⟨rfl, rfl, rfl⟩

/-- C2 witness: a fresh store, a one-file corpus, semantic enabled with a
well-behaved provider. -/
theorem c2_ensure_index_idempotent_witness :
    (ensure_index ⟨true, true, true, str "m"⟩ (fun t => t)
        (fun ts => some (ts.map (fun _ => [1]))) 2
        [(str "a.md", str "hello")]
        (ensure_index ⟨true, true, true, str "m"⟩ (fun t => t)
          (fun ts => some (ts.map (fun _ => [1]))) 1
          [(str "a.md", str "hello")] ⟨[], 1, [], []⟩)).chunks.length
      = (ensure_index ⟨true, true, true, str "m"⟩ (fun t => t)
          (fun ts => some (ts.map (fun _ => [1]))) 1
          [(str "a.md", str "hello")] ⟨[], 1, [], []⟩).chunks.length
    ∧ (ensure_index ⟨true, true, true, str "m"⟩ (fun t => t)
        (fun ts => some (ts.map (fun _ => [1]))) 2
        [(str "a.md", str "hello")]
        (ensure_index ⟨true, true, true, str "m"⟩ (fun t => t)
          (fun ts => some (ts.map (fun _ => [1]))) 1
          [(str "a.md", str "hello")] ⟨[], 1, [], []⟩)).sources.length
      = (ensure_index ⟨true, true, true, str "m"⟩ (fun t => t)
          (fun ts => some (ts.map (fun _ => [1]))) 1
          [(str "a.md", str "hello")] ⟨[], 1, [], []⟩).sources.length
    ∧ (ensure_index ⟨true, true, true, str "m"⟩ (fun t => t)
        (fun ts => some (ts.map (fun _ => [1]))) 2
        [(str "a.md", str "hello")]
        (ensure_index ⟨true, true, true, str "m"⟩ (fun t => t)
          (fun ts => some (ts.map (fun _ => [1]))) 1
          [(str "a.md", str "hello")] ⟨[], 1, [], []⟩)).embeddings.length
      = (ensure_index ⟨true, true, true, str "m"⟩ (fun t => t)
          (fun ts => some (ts.map (fun _ => [1]))) 1
          [(str "a.md", str "hello")] ⟨[], 1, [], []⟩).embeddings.length :=
  c2_ensure_index_idempotent ⟨true, true, true, str "m"⟩ (fun t => t)
    (fun ts => some (ts.map (fun _ => [1]))) 1 2
    [(str "a.md", str "hello")] ⟨[], 1, [], []⟩
    ⟨by simp, by simp⟩ (by decide)
    (fun ts vs h => by
      have h2 : ts.map (fun _ => ([1] : List ℚ)) = vs := Option.some.inj h
      rw [← h2, List.length_map])
    (fun ts vs h v hv => by
      have h2 : ts.map (fun _ => ([1] : List ℚ)) = vs := Option.some.inj h
      rw [← h2] at hv
      obtain ⟨_, _, rfl⟩ := List.mem_map.mp hv
      simp)
